import Mathlib

/-!
Verification of the CIDR calculator (`pure_cidr_calculator.py`, with the
first/last-usable sentinel of `cidr_calculator.analyze_network`).

The Python code is embedded shallowly: strings become `List Char` / `String`,
Python's unbounded `int` becomes `ℕ` (or `ℤ` where a value can go negative),
and exceptions become `Except String` / `Option`.  `while` loops are embedded
as fuel recursion whose fuel is exactly the loop's termination measure; fuel
sufficiency on the reachable states is proved below.
-/

/-! ## Python string and int primitives (ASCII fragment) -/

/-- Python `str.split(sep)` for a one-character separator: keeps empty parts. -/
def pySplitOn (sep : Char) : List Char → List (List Char)
  | [] => [[]]
  | c :: rest =>
    match pySplitOn sep rest with
    | [] => [[]]
    | g :: gs => if c = sep then [] :: g :: gs else (c :: g) :: gs

/-- Python `sep.join(parts)` for a one-character separator. -/
def pyJoin (sep : Char) : List (List Char) → List Char
  | [] => []
  | [g] => g
  | g :: g' :: gs => g ++ sep :: pyJoin sep (g' :: gs)

/-- Python `sub in s` (substring containment). -/
def containsSub (pat : List Char) : List Char → Bool
  | [] => pat.isPrefixOf []
  | c :: rest => pat.isPrefixOf (c :: rest) || containsSub pat rest

/-- One step bundle for Python `str.replace(old, new)`; the fuel is the length
of the scanned list, enough because `old` is nonempty at every use site. -/
def replaceAux (old new : List Char) : ℕ → List Char → List Char
  | 0, l => l
  | f + 1, l =>
    match l with
    | [] => []
    | c :: rest =>
      if old.isPrefixOf (c :: rest) then new ++ replaceAux old new f ((c :: rest).drop old.length)
      else c :: replaceAux old new f rest

/-- Python `s.replace(old, new)` (left-to-right, non-overlapping). -/
def pyReplace (l old new : List Char) : List Char := replaceAux old new l.length l

/-- ASCII whitespace stripped by Python `int(...)` / `str.strip()`. -/
def isPyWS (c : Char) : Bool :=
  c = ' ' || c = '\t' || c = '\n' || c = '\x0d' || c = '\x0b' || c = '\x0c'

/-- Python `str.strip()` (ASCII fragment). -/
def pyStrip (l : List Char) : List Char :=
  ((l.dropWhile isPyWS).reverse.dropWhile isPyWS).reverse

/-- Python `str.isdigit()` (ASCII fragment). -/
def pyIsDigitStr (l : List Char) : Bool := !l.isEmpty && l.all Char.isDigit

/-- Numeric value of an ASCII decimal digit. -/
def digitVal (c : Char) : ℕ := c.toNat - 48

/-- Decimal digit tail with Python's single-underscore grouping rule. -/
def pyDigitsAux (acc : ℕ) : List Char → Option ℕ
  | [] => some acc
  | c :: rest =>
    if c = '_' then
      match rest with
      | c' :: rest' =>
        if c'.isDigit then pyDigitsAux (acc * 10 + digitVal c') rest' else none
      | [] => none
    else if c.isDigit then pyDigitsAux (acc * 10 + digitVal c) rest else none

/-- Decimal digit run: must start with a digit. -/
def pyDigitsStart : List Char → Option ℕ
  | c :: rest => if c.isDigit then pyDigitsAux (digitVal c) rest else none
  | [] => none

/-- Optional sign in front of a decimal digit run. -/
def pyIntCore10 : List Char → Option ℤ
  | [] => none
  | c :: rest =>
    if c = '+' then (pyDigitsStart rest).map Int.ofNat
    else if c = '-' then (pyDigitsStart rest).map (fun n => -(n : ℤ))
    else (pyDigitsStart (c :: rest)).map Int.ofNat

/-- Python `int(text)` (base 10, ASCII fragment): optional surrounding
whitespace, optional sign, digits with optional single underscores. -/
def pyInt10 (l : List Char) : Option ℤ := pyIntCore10 (pyStrip l)

/-- Hexadecimal digit test, both cases, as accepted by Python `int(_, 16)`. -/
def isPyHex (c : Char) : Bool :=
  c.isDigit || ('a' ≤ c && c ≤ 'f') || ('A' ≤ c && c ≤ 'F')

/-- Numeric value of a hexadecimal digit. -/
def hexVal (c : Char) : ℕ :=
  if c.isDigit then c.toNat - 48
  else if 'a' ≤ c && c ≤ 'f' then c.toNat - 87
  else c.toNat - 55

/-- Hexadecimal digit tail with Python's single-underscore grouping rule. -/
def pyHexAux (acc : ℕ) : List Char → Option ℕ
  | [] => some acc
  | c :: rest =>
    if c = '_' then
      match rest with
      | c' :: rest' =>
        if isPyHex c' then pyHexAux (acc * 16 + hexVal c') rest' else none
      | [] => none
    else if isPyHex c then pyHexAux (acc * 16 + hexVal c) rest else none

/-- Hexadecimal digit run: must start with a hex digit. -/
def pyHexStart : List Char → Option ℕ
  | c :: rest => if isPyHex c then pyHexAux (hexVal c) rest else none
  | [] => none

/-- Hexadecimal literal body: optional `0x`/`0X`, an underscore may follow it. -/
def pyHexBody : List Char → Option ℕ
  | c :: c' :: rest =>
    if c = '0' && (c' = 'x' || c' = 'X') then
      (match rest with
       | '_' :: rest' => pyHexStart rest'
       | _ => pyHexStart rest)
    else pyHexStart (c :: c' :: rest)
  | l => pyHexStart l

/-- Optional sign in front of a hexadecimal literal body. -/
def pyIntCore16 : List Char → Option ℤ
  | [] => none
  | c :: rest =>
    if c = '+' then (pyHexBody rest).map Int.ofNat
    else if c = '-' then (pyHexBody rest).map (fun n => -(n : ℤ))
    else (pyHexBody (c :: rest)).map Int.ofNat

/-- Python `int(text, 16)` (ASCII fragment). -/
def pyInt16 (l : List Char) : Option ℤ := pyIntCore16 (pyStrip l)

/-- Decimal digits of `n`, most significant first (fuel recursion, fuel
`n + 1` always suffices since the argument at fuel `f` is `< f`). -/
def decAux : ℕ → ℕ → List Char
  | 0, _ => []
  | f + 1, n =>
    if n < 10 then [Char.ofNat (48 + n)]
    else decAux f (n / 10) ++ [Char.ofNat (48 + n % 10)]

/-- Python `str(n)` for a nonnegative integer. -/
def decDigits (n : ℕ) : List Char := decAux (n + 1) n

/-- Python `str(z)` for an integer. -/
def intRepr (z : ℤ) : List Char :=
  if z < 0 then '-' :: decDigits z.natAbs else decDigits z.toNat

/-! ## `IP._ipv4_to_int` and `IP._ipv6_to_int` -/

/-- The per-octet loop of `IP._ipv4_to_int`: `result = (result << 8) + octet`
after `int(part)` and the `0 <= octet <= 255` range check. -/
def ipv4Fold (result : ℕ) : List (List Char) → Except String ℕ
  | [] => .ok result
  | part :: parts =>
    match pyInt10 part with
    | none => .error ("invalid literal for int() with base 10: '" ++ String.mk part ++ "'")
    | some octet =>
      if ¬(0 ≤ octet ∧ octet ≤ 255) then
        .error ("Невалидна стойност за октет: " ++ String.mk (intRepr octet))
      else ipv4Fold ((result <<< 8) + octet.toNat) parts

/-- `IP._ipv4_to_int`: split on `.`, demand 4 parts, fold the octets. -/
def ipv4_to_int (l : List Char) : Except String ℕ :=
  if (pySplitOn '.' l).length ≠ 4 then .error "Невалиден IPv4 адрес"
  else ipv4Fold 0 (pySplitOn '.' l)

/-- The `::` expansion of `IP._ipv6_to_int`:
`missing_count = 8 - s.count(':') + 1` (computed in ℤ, clamped by Python's
string repetition), `s.replace('::', ':' + ':0'*missing_count + ':')`, then
the `startswith(':')` / `endswith(':')` patch-ups. -/
def ipv6Expand (l : List Char) : List Char :=
  if containsSub [':', ':'] l then
    let missing_count : ℤ := 8 - (l.count ':' : ℤ) + 1
    let repl : List Char := ':' :: (List.replicate missing_count.toNat [':', '0']).flatten ++ [':']
    let l := pyReplace l [':', ':'] repl
    let l := if l.headI = ':' then '0' :: l else l
    let l := if l.getLastI = ':' then l ++ ['0'] else l
    l
  else l

/-- The per-group loop of `IP._ipv6_to_int`: empty-part check, `int(part, 16)`,
range check, `result = (result << 16) + hex_val`. -/
def ipv6Fold (result : ℕ) : List (List Char) → Except String ℕ
  | [] => .ok result
  | part :: parts =>
    if part.isEmpty then .error "Невалиден IPv6 адрес"
    else
      match pyInt16 part with
      | none => .error ("invalid literal for int() with base 16: '" ++ String.mk part ++ "'")
      | some hex_val =>
        if ¬(0 ≤ hex_val ∧ hex_val ≤ 0xFFFF) then
          .error ("Невалидна стойност за IPv6 част: " ++ String.mk part)
        else ipv6Fold ((result <<< 16) + hex_val.toNat) parts

/-- `IP._ipv6_to_int`: expand `::`, split on `:`, demand 8 parts, fold. -/
def ipv6_to_int (l : List Char) : Except String ℕ :=
  if (pySplitOn ':' (ipv6Expand l)).length ≠ 8 then .error "Невалиден IPv6 адрес"
  else ipv6Fold 0 (pySplitOn ':' (ipv6Expand l))

/-- `IP.version`: 6 when the text contains `:`, else 4. -/
def ipVersion (l : List Char) : ℕ := if l.contains ':' then 6 else 4

/-- An `IP` object: protocol version together with the address integer. -/
structure IPv where
  version : ℕ
  ip_int : ℕ
  deriving DecidableEq, Repr

/-- `IP.__init__` / `IP._to_integer`: dispatch on the version. -/
def ipParse (s : String) : Except String IPv :=
  if ipVersion s.data = 4 then (ipv4_to_int s.data).map (fun n => ⟨4, n⟩)
  else (ipv6_to_int s.data).map (fun n => ⟨6, n⟩)

/-! ## `IP._int_to_ipv4_str` and `IP._int_to_ipv6_str`

Both take a Python `int`, which can be negative at one call site
(`get_last_usable` of the all-zero network), so they are embedded over `ℤ`;
Python's `& mask` / `>>` on negative ints are floor `emod` / `fdiv`. -/

/-- The octet strings of `_int_to_ipv4_str`'s loop (`str(ip & 255)` prepended,
then `ip >>= 8`), most significant octet first after `k` rounds. -/
def ipv4Groups : ℤ → ℕ → List (List Char)
  | _, 0 => []
  | ip, k + 1 => ipv4Groups (Int.fdiv ip 256) k ++ [decDigits (Int.emod ip 256).toNat]

/-- `IP._int_to_ipv4_str`. -/
def int_to_ipv4_str (ip : ℤ) : String := String.mk (pyJoin '.' (ipv4Groups ip 4))

/-- A lowercase hexadecimal digit character. -/
def hexChar (n : ℕ) : Char := if n < 10 then Char.ofNat (48 + n) else Char.ofNat (87 + n)

/-- `format(x, '04x')` for `x < 2^16` (the argument is always `ip & 0xFFFF`). -/
def hex4 (n : ℕ) : List Char :=
  [hexChar (n / 4096 % 16), hexChar (n / 256 % 16), hexChar (n / 16 % 16), hexChar (n % 16)]

/-- The group strings of `_int_to_ipv6_str`'s loop (`format(ip & 0xFFFF, '04x')`
prepended, then `ip >>= 16`), most significant group first after `k` rounds. -/
def ipv6Groups : ℤ → ℕ → List (List Char)
  | _, 0 => []
  | ip, k + 1 => ipv6Groups (Int.fdiv ip 65536) k ++ [hex4 (Int.emod ip 65536).toNat]

/-- `IP._int_to_ipv6_str`. -/
def int_to_ipv6_str (ip : ℤ) : String := String.mk (pyJoin ':' (ipv6Groups ip 8))

/-! ## The `Network` class -/

/-- The bit-clear loop of `Network.count_leading_zeros`: the argument is the
exponent of the probe mask plus one (`mask = 2^(e-1)`, halved each round), so
the recursion is the source's `while mask > 0 and not (num & mask)`. -/
def clzAux (num : ℕ) : ℕ → ℕ
  | 0 => 0
  | e + 1 => if num &&& (1 <<< e) = 0 then clzAux num e + 1 else 0

/-- `Network.count_leading_zeros`. -/
def count_leading_zeros (num bits : ℕ) : ℕ :=
  if num = 0 then bits else clzAux num bits

/-- `Network.find_optimal_prefix` (CLZ of the XOR of the endpoints). -/
def find_optimal_pfx (start e bits : ℕ) : ℕ :=
  if start = e then bits
  else bits - (bits - count_leading_zeros (start ^^^ e) bits)

/-- A `Network` object after `_calculate_network_values`. -/
structure NetworkV where
  version : ℕ
  prefix_length : ℕ
  ip_int : ℕ
  netmask_int : ℕ
  network_address_int : ℕ
  broadcast_address_int : ℕ
  deriving DecidableEq, Repr

/-- `Network._calculate_network_values`. -/
def calculate_network_values (version prefix_length ip_int : ℕ) : NetworkV :=
  let bits := if version = 4 then 32 else 128
  let netmask_int := ((1 <<< bits) - 1) ^^^ ((1 <<< (bits - prefix_length)) - 1)
  let network_address_int := ip_int &&& netmask_int
  let broadcast_address_int := network_address_int ||| ((1 <<< (bits - prefix_length)) - 1)
  ⟨version, prefix_length, ip_int, netmask_int, network_address_int, broadcast_address_int⟩

/-- Plain `int()` of an all-digit string, used after `prefix_str.isdigit()`. -/
def digitsVal (l : List Char) : ℕ := l.foldl (fun acc c => acc * 10 + digitVal c) 0

/-- `Network.__init__`: the `/` check, prefix validation, address parse,
prefix-range check, then `_calculate_network_values`.  A split that does not
produce exactly two parts raises the generic message (the tuple-unpacking
failure lands in the source's blanket `except`). -/
def networkParse (network_str : String) : Except String NetworkV :=
  if ¬ network_str.data.contains '/' then
    .error "Моля, въведете IP адрес с префикс (пример: 192.168.1.0/24 или 2001:db8::/32)"
  else
    match pySplitOn '/' network_str.data with
    | [ip_chars, pfx_chars] =>
      if ¬ pyIsDigitStr pfx_chars then .error "Префиксът трябва да бъде число"
      else
        match ipParse (String.mk ip_chars) with
        | .error e => .error e
        | .ok ip =>
          let prefix_length := digitsVal pfx_chars
          let max_pfx := if ip.version = 4 then 32 else 128
          if ¬(0 ≤ prefix_length ∧ prefix_length ≤ max_pfx) then
            .error ("Префиксът трябва да бъде между 0 и " ++ String.mk (decDigits max_pfx))
          else .ok (calculate_network_values ip.version prefix_length ip.ip_int)
    | _ => .error "Невалиден CIDR формат. Моля, използвайте формат IP/префикс (пример: 192.168.1.0/24)"

/-- `Network.get_network_address`. -/
def get_network_address (n : NetworkV) : String :=
  if n.version = 4 then int_to_ipv4_str (n.network_address_int : ℤ)
  else int_to_ipv6_str (n.network_address_int : ℤ)

/-- `Network.get_broadcast_address`. -/
def get_broadcast_address (n : NetworkV) : String :=
  if n.version = 4 then int_to_ipv4_str (n.broadcast_address_int : ℤ)
  else int_to_ipv6_str (n.broadcast_address_int : ℤ)

/-- `Network.get_netmask`. -/
def get_netmask (n : NetworkV) : String :=
  if n.version = 4 then int_to_ipv4_str (n.netmask_int : ℤ)
  else int_to_ipv6_str (n.netmask_int : ℤ)

/-- `Network.get_first_usable`: unconditionally `network_address + 1`. -/
def get_first_usable (n : NetworkV) : String :=
  if n.version = 4 then int_to_ipv4_str ((n.network_address_int : ℤ) + 1)
  else int_to_ipv6_str ((n.network_address_int : ℤ) + 1)

/-- `Network.get_last_usable`: unconditionally `broadcast_address - 1`
(a Python int, negative for the all-zero /32 and /128 networks). -/
def get_last_usable (n : NetworkV) : String :=
  if n.version = 4 then int_to_ipv4_str ((n.broadcast_address_int : ℤ) - 1)
  else int_to_ipv6_str ((n.broadcast_address_int : ℤ) - 1)

/-- `Network.get_num_addresses`: `1 << bits - prefix` which Python parses as
`1 << (bits - prefix)`. -/
def get_num_addresses (n : NetworkV) : ℕ :=
  1 <<< ((if n.version = 4 then 32 else 128) - n.prefix_length)

/-! ## `find_optimal_cidrs` -/

/-- The inner `while network_start < current_ip` loop of `find_optimal_cidrs`:
raise the prefix until the block is aligned at `current_ip`, bailing out when
the prefix passes `bits`.  Fuel `bits + 1 - pfx` covers every reachable state
exactly (the loop can recurse only while `pfx + 1 ≤ bits`). -/
def alignAux (bits current_ip : ℕ) : ℕ → ℕ → ℕ
  | 0, pfx => pfx
  | f + 1, pfx =>
    if current_ip &&& (((1 <<< bits) - 1) ^^^ ((1 <<< (bits - pfx)) - 1)) < current_ip then
      (if pfx + 1 > bits then pfx + 1 else alignAux bits current_ip f (pfx + 1))
    else pfx

/-- The inner alignment loop started from the CLZ-derived prefix. -/
def align_pfx (bits current_ip pfx : ℕ) : ℕ := alignAux bits current_ip (bits + 1 - pfx) pfx

/-- One emitted block's final prefix at `current_ip` for range end `e`. -/
def blockPfx (bits current_ip e : ℕ) : ℕ :=
  align_pfx bits current_ip (find_optimal_pfx current_ip e bits)

/-- The advance `current_ip = (current_ip & ((1<<bits)-(1<<(bits-prefix)))) + (1<<(bits-prefix))`. -/
def nextIp (bits current_ip pfx : ℕ) : ℕ :=
  (current_ip &&& ((1 <<< bits) - (1 <<< (bits - pfx)))) + (1 <<< (bits - pfx))

/-- The `while current_ip <= end_ip_int` loop of `find_optimal_cidrs`,
returning the `(current_ip, prefix)` pairs it emits.  Fuel recursion: on every
reachable state the advance strictly increases `current_ip` (proved below), so
fuel `end_ip_int + 1 - current_ip` is exactly the loop's termination measure. -/
def optimalAux (bits end_ip_int : ℕ) : ℕ → ℕ → List (ℕ × ℕ)
  | 0, _ => []
  | f + 1, current_ip =>
    if current_ip ≤ end_ip_int then
      (current_ip, blockPfx bits current_ip end_ip_int) ::
        optimalAux bits end_ip_int f (nextIp bits current_ip (blockPfx bits current_ip end_ip_int))
    else []

/-- All `(current_ip, prefix)` pairs emitted for the range `[start_ip, end_ip]`. -/
def optimal_blocks (bits start_ip end_ip : ℕ) : List (ℕ × ℕ) :=
  optimalAux bits end_ip (end_ip + 1 - start_ip) start_ip

/-- Formatting of one emitted block: `f"{int_to_str(current_ip)}/{prefix}"`. -/
def cidrString (version : ℕ) (block : ℕ × ℕ) : String :=
  (if version = 4 then int_to_ipv4_str (block.1 : ℤ) else int_to_ipv6_str (block.1 : ℤ)) ++
    "/" ++ String.mk (decDigits block.2)

/-- `find_optimal_cidrs`: parse both endpoints, require equal versions, swap
into order, run the loop, format each block; any `ValueError` becomes the
single-element `"Грешка: ..."` list. -/
def find_optimal_cidrs (start_ip_str end_ip_str : String) : List String :=
  match ipParse start_ip_str with
  | .error e => ["Грешка: " ++ e]
  | .ok start_ip =>
    match ipParse end_ip_str with
    | .error e => ["Грешка: " ++ e]
    | .ok end_ip =>
      if start_ip.version ≠ end_ip.version then
        ["Грешка: IP адресите трябва да са от един и същ тип"]
      else
        let s := if end_ip.ip_int < start_ip.ip_int then end_ip.ip_int else start_ip.ip_int
        let e := if end_ip.ip_int < start_ip.ip_int then start_ip.ip_int else end_ip.ip_int
        let bits := if start_ip.version = 4 then 32 else 128
        (optimal_blocks bits s e).map (cidrString start_ip.version)

/-! ## The first/last-usable sentinel of `cidr_calculator.analyze_network` -/

/-- Modelled from the spec: `cidr_calculator.analyze_network` obtains its
network object from Python's stdlib `ipaddress` module, which is not part of
this repository's sources; per the spec, `network[1]` is `base + 1` and
`num_addresses` is `2^(width-prefix)`.  This models the source's
`str(network[1]) if network.num_addresses > 2 else "N/A"` (line 37) at the
integer level: `some (base+1)` stands for the formatted address, `none`
for the `"N/A"` sentinel. -/
def analyze_first_usable (bits prefix_length base : ℕ) : Option ℕ :=
  if 2 < 2 ^ (bits - prefix_length) then some (base + 1) else none

/-- Modelled from the spec: as `analyze_first_usable`, for the source's
`str(network[-2]) if network.num_addresses > 2 else "N/A"` (line 38);
`network[-2]` is the last address of the block minus 1. -/
def analyze_last_usable (bits prefix_length base : ℕ) : Option ℕ :=
  if 2 < 2 ^ (bits - prefix_length) then some (base + 2 ^ (bits - prefix_length) - 2) else none

/-! ## Specification-side notions used by the theorems below -/

/-- `Tiles s t L`: the list of exponents `L` describes a decomposition of the
half-open integer interval `[s, t)` into contiguous aligned power-of-two
blocks: each block of size `2^k` starts at a multiple of `2^k` and the blocks
exactly cover `[s, t)` in order.  This is the spec's "valid decomposition of
`[start, end]` into aligned power-of-two blocks" (with `t = end + 1`). -/
inductive Tiles : ℕ → ℕ → List ℕ → Prop
  | nil (s : ℕ) : Tiles s s []
  | cons (s t k : ℕ) (L : List ℕ) (halign : 2 ^ k ∣ s) (hfit : s + 2 ^ k ≤ t)
      (rest : Tiles (s + 2 ^ k) t L) : Tiles s t (k :: L)

/-- Two emitted `(address, prefix)` blocks are mergeable when they are equal
in size, adjacent, and their union is a single aligned block of twice the
size (prefix one less). -/
def mergeable (w : ℕ) (b b' : ℕ × ℕ) : Prop :=
  b.2 = b'.2 ∧ b'.1 = b.1 + 2 ^ (w - b.2) ∧ 2 ^ (w - b.2 + 1) ∣ b.1

/-! ## Bit-arithmetic groundwork -/

theorem one_shiftLeft (n : ℕ) : (1 : ℕ) <<< n = 2 ^ n := by
  simp [Nat.shiftLeft_eq]

theorem two_pow_sub_two_pow_testBit (w k i : ℕ) (hk : k ≤ w) :
    (2 ^ w - 2 ^ k : ℕ).testBit i = (decide (k ≤ i) && decide (i < w)) := by
  have h : (2 ^ w - 2 ^ k : ℕ) = 2 ^ k * (2 ^ (w - k) - 1) := by
    rw [Nat.mul_sub, Nat.mul_one, ← pow_add, Nat.add_sub_cancel' hk]
  rw [h, Nat.testBit_mul_pow_two, Nat.testBit_two_pow_sub_one]
  by_cases h1 : k ≤ i <;> by_cases h2 : i < w <;>
    simp [h1, h2] <;> omega

theorem maskHi_eq (w k : ℕ) (hk : k ≤ w) :
    (((1 <<< w) - 1 : ℕ) ^^^ ((1 <<< k) - 1)) = 2 ^ w - 2 ^ k := by
  apply Nat.eq_of_testBit_eq
  intro i
  rw [one_shiftLeft, one_shiftLeft, Nat.testBit_xor, Nat.testBit_two_pow_sub_one,
    Nat.testBit_two_pow_sub_one, two_pow_sub_two_pow_testBit w k i hk]
  by_cases h1 : i < k <;> by_cases h2 : i < w <;>
    simp [h1, h2] <;> omega

theorem and_maskHi (w k c : ℕ) (hc : c < 2 ^ w) (hk : k ≤ w) :
    c &&& (2 ^ w - 2 ^ k) = c / 2 ^ k * 2 ^ k := by
  apply Nat.eq_of_testBit_eq
  intro i
  rw [Nat.testBit_and, two_pow_sub_two_pow_testBit w k i hk]
  rw [show c / 2 ^ k * 2 ^ k = 2 ^ k * (c / 2 ^ k) by ring, Nat.testBit_mul_pow_two]
  rw [show c / 2 ^ k = c >>> k from (Nat.shiftRight_eq_div_pow c k).symm, Nat.testBit_shiftRight]
  by_cases h1 : k ≤ i
  · rw [show k + (i - k) = i by omega]
    by_cases h2 : i < w
    · simp [h1, h2]
    · have : c.testBit i = false :=
        Nat.testBit_lt_two_pow (lt_of_lt_of_le hc (Nat.pow_le_pow_right (by norm_num) (by omega)))
      simp [h1, h2, this]
  · simp [h1]

theorem and_maskHi_self_iff (w k c : ℕ) (hc : c < 2 ^ w) (hk : k ≤ w) :
    (c &&& (2 ^ w - 2 ^ k) = c) ↔ 2 ^ k ∣ c := by
  rw [and_maskHi w k c hc hk]
  constructor
  · intro h
    exact ⟨c / 2 ^ k, by rw [mul_comm]; exact h.symm⟩
  · intro h
    exact Nat.div_mul_cancel h

theorem and_maskHi_lt_iff (w k c : ℕ) (hc : c < 2 ^ w) (hk : k ≤ w) :
    (c &&& (2 ^ w - 2 ^ k) < c) ↔ ¬ 2 ^ k ∣ c := by
  rw [← and_maskHi_self_iff w k c hc hk]
  constructor
  · intro h; omega
  · intro h
    have hle : c &&& (2 ^ w - 2 ^ k) ≤ c := by
      rw [and_maskHi w k c hc hk]; exact Nat.div_mul_le_self c _
    omega

theorem xor_eq_add_of_dvd (j c d : ℕ) (hdvd : 2 ^ j ∣ c) (hd : d < 2 ^ j) :
    c ^^^ d = c + d := by
  obtain ⟨q, rfl⟩ := hdvd
  rw [Nat.mul_add_lt_is_or hd q]
  apply Nat.eq_of_testBit_eq
  intro i
  rw [Nat.testBit_xor, Nat.testBit_or]
  by_cases h1 : i < j
  · have : (2 ^ j * q).testBit i = false := by
      rw [Nat.testBit_mul_pow_two]
      simp only [Bool.and_eq_false_iff, decide_eq_false_iff_not]
      left; omega
    simp [this]
  · have : d.testBit i = false :=
      Nat.testBit_lt_two_pow (lt_of_lt_of_le hd (Nat.pow_le_pow_right (by norm_num) (by omega)))
    simp [this]

/-! ## Characterization of `count_leading_zeros` -/

theorem clzAux_le (num : ℕ) : ∀ e, clzAux num e ≤ e := by
  intro e
  induction e with
  | zero => simp [clzAux]
  | succ e ih =>
    rw [clzAux]
    split
    · omega
    · omega

theorem count_leading_zeros_le (num bits : ℕ) : count_leading_zeros num bits ≤ bits := by
  rw [count_leading_zeros]
  split
  · exact le_refl _
  · exact clzAux_le num bits

theorem clzAux_eq (num : ℕ) (hpos : 0 < num) :
    ∀ e, num < 2 ^ e → clzAux num e = e - num.size := by
  intro e
  induction e with
  | zero => intro h; omega
  | succ e ih =>
    intro h
    rw [clzAux, one_shiftLeft]
    have hand : num &&& 2 ^ e = if num.testBit e then 2 ^ e else 0 := by
      apply Nat.eq_of_testBit_eq
      intro i
      by_cases hie : i = e
      · subst hie
        by_cases hb : num.testBit i <;> simp [hb, Nat.testBit_two_pow_self]
      · by_cases hb : num.testBit e <;>
          simp [hb, Nat.testBit_two_pow_of_ne (fun hh => hie hh.symm), hie]
    by_cases hb : num.testBit e
    · rw [hand, if_pos hb, if_neg (by positivity)]
      have h2e : 2 ^ e ≤ num := Nat.testBit_implies_ge hb
      have hsz : num.size = e + 1 := by
        have h1 : num.size ≤ e + 1 := Nat.size_le.2 h
        have h2 : e < num.size := Nat.lt_size.2 h2e
        omega
      omega
    · simp only [Bool.not_eq_true] at hb
      rw [hand, if_neg (show ¬num.testBit e = true by simp [hb]), if_pos rfl]
      have hlt : num < 2 ^ e := by
        have hq : num / 2 ^ e < 2 := by
          rw [Nat.div_lt_iff_lt_mul (Nat.two_pow_pos e)]
          calc num < 2 ^ (e + 1) := h
          _ = 2 * 2 ^ e := by ring
        have hq0 : num / 2 ^ e % 2 ≠ 1 := by
          intro hcontra
          rw [Nat.testBit_to_div_mod] at hb
          simp [hcontra] at hb
        have ht : num / 2 ^ e = 0 ∨ num / 2 ^ e = 1 := by
          rcases Nat.lt_succ_iff_lt_or_eq.1 hq with hlt1 | heq1
          · exact Or.inl (Nat.lt_one_iff.1 hlt1)
          · exact Or.inr heq1
        have : num / 2 ^ e = 0 := by
          cases ht with
          | inl h0 => exact h0
          | inr h1 => exact absurd (by rw [h1]) hq0
        exact (Nat.div_eq_zero_iff (Nat.two_pow_pos e)).1 this
      have hsz : num.size ≤ e := Nat.size_le.2 hlt
      rw [ih hlt]
      omega

theorem count_leading_zeros_eq (num bits : ℕ) (hpos : 0 < num) (h : num < 2 ^ bits) :
    count_leading_zeros num bits = bits - num.size := by
  rw [count_leading_zeros, if_neg (by omega)]
  exact clzAux_eq num hpos bits h

/-! ## `find_optimal_pfx` facts -/

theorem find_optimal_pfx_le (c e bits : ℕ) : find_optimal_pfx c e bits ≤ bits := by
  rw [find_optimal_pfx]
  split
  · exact le_refl _
  · omega

theorem find_optimal_pfx_eq (c e w : ℕ) (hne : c ≠ e) (hc : c < 2 ^ w) (he : e < 2 ^ w) :
    find_optimal_pfx c e w = w - (c ^^^ e).size := by
  rw [find_optimal_pfx, if_neg hne]
  have hx0 : 0 < c ^^^ e := by
    rcases Nat.eq_zero_or_pos (c ^^^ e) with h0 | h0
    · exact absurd (Nat.xor_eq_zero.1 h0) hne
    · exact h0
  have hxlt : c ^^^ e < 2 ^ w := Nat.xor_lt_two_pow hc he
  rw [count_leading_zeros_eq _ _ hx0 hxlt]
  have : (c ^^^ e).size ≤ w := Nat.size_le.2 hxlt
  omega

/-! ## The inner alignment loop -/

theorem alignAux_spec (w c : ℕ) (hc : c < 2 ^ w) :
    ∀ f p, p ≤ w → f = w + 1 - p →
      p ≤ alignAux w c f p ∧ alignAux w c f p ≤ w ∧ 2 ^ (w - alignAux w c f p) ∣ c := by
  intro f
  induction f with
  | zero => intro p hp hf; omega
  | succ f ih =>
    intro p hp hf
    rw [alignAux, maskHi_eq w (w - p) (by omega)]
    by_cases hdvd : 2 ^ (w - p) ∣ c
    · rw [if_neg (by rw [and_maskHi_lt_iff w (w - p) c hc (by omega)]; simpa using hdvd)]
      exact ⟨le_refl p, hp, hdvd⟩
    · rw [if_pos ((and_maskHi_lt_iff w (w - p) c hc (by omega)).2 hdvd)]
      have hpw : p < w := by
        rcases Nat.lt_or_ge p w with h | h
        · exact h
        · exfalso
          have : p = w := le_antisymm hp h
          subst this
          simp at hdvd
      rw [if_neg (by omega)]
      have := ih (p + 1) (by omega) (by omega)
      exact ⟨by omega, this.2.1, this.2.2⟩

theorem alignAux_min (w c : ℕ) (hc : c < 2 ^ w) :
    ∀ f p, p ≤ w → f = w + 1 - p → ∀ q, p ≤ q → q ≤ w → 2 ^ (w - q) ∣ c →
      alignAux w c f p ≤ q := by
  intro f
  induction f with
  | zero => intro p hp hf; omega
  | succ f ih =>
    intro p hp hf q hpq hqw hqdvd
    rw [alignAux, maskHi_eq w (w - p) (by omega)]
    by_cases hdvd : 2 ^ (w - p) ∣ c
    · rw [if_neg (by rw [and_maskHi_lt_iff w (w - p) c hc (by omega)]; simpa using hdvd)]
      exact hpq
    · rw [if_pos ((and_maskHi_lt_iff w (w - p) c hc (by omega)).2 hdvd)]
      have hpw : p < w := by
        rcases Nat.lt_or_ge p w with h | h
        · exact h
        · exfalso
          have : p = w := le_antisymm hp h
          subst this
          simp at hdvd
      rw [if_neg (by omega)]
      have hqp : p + 1 ≤ q := by
        rcases Nat.lt_or_ge p q with h | h
        · omega
        · exfalso; exact hdvd (by rw [show p = q by omega]; exact hqdvd)
      exact ih (p + 1) (by omega) (by omega) q hqp hqw hqdvd

theorem blockPfx_bounds (w c e : ℕ) (hc : c < 2 ^ w) :
    find_optimal_pfx c e w ≤ blockPfx w c e ∧ blockPfx w c e ≤ w ∧
      2 ^ (w - blockPfx w c e) ∣ c :=
  alignAux_spec w c hc _ _ (find_optimal_pfx_le c e w) rfl

theorem blockPfx_min (w c e q : ℕ) (hc : c < 2 ^ w)
    (hq1 : find_optimal_pfx c e w ≤ q) (hq2 : q ≤ w) (hdvd : 2 ^ (w - q) ∣ c) :
    blockPfx w c e ≤ q :=
  alignAux_min w c hc _ _ (find_optimal_pfx_le c e w) rfl q hq1 hq2 hdvd

theorem nextIp_eq (w c p : ℕ) (hc : c < 2 ^ w) (hdvd : 2 ^ (w - p) ∣ c) :
    nextIp w c p = c + 2 ^ (w - p) := by
  rw [nextIp, one_shiftLeft, one_shiftLeft,
    (and_maskHi_self_iff w (w - p) c hc (by omega)).2 hdvd]

/-! ## The outer summarization loop: interface equations -/

theorem optimalAux_stop (w e f c : ℕ) (h : e < c) : optimalAux w e f c = [] := by
  cases f with
  | zero => rfl
  | succ f => rw [optimalAux, if_neg (by omega)]

theorem nextIp_gt (w c e : ℕ) (hc : c < 2 ^ w) :
    c < nextIp w c (blockPfx w c e) := by
  obtain ⟨_, _, h3⟩ := blockPfx_bounds w c e hc
  rw [nextIp_eq w c _ hc h3]
  have := Nat.two_pow_pos (w - blockPfx w c e)
  omega

theorem optimalAux_fuel (w e : ℕ) (he : e < 2 ^ w) :
    ∀ f₁ f₂ c, c < 2 ^ w → e + 1 - c ≤ f₁ → e + 1 - c ≤ f₂ →
      optimalAux w e f₁ c = optimalAux w e f₂ c := by
  intro f₁
  induction f₁ using Nat.strong_induction_on with
  | _ f₁ ih =>
    intro f₂ c hc h1 h2
    by_cases hce : c ≤ e
    · obtain ⟨g₁, rfl⟩ : ∃ g, f₁ = g + 1 := ⟨f₁ - 1, by omega⟩
      obtain ⟨g₂, rfl⟩ : ∃ g, f₂ = g + 1 := ⟨f₂ - 1, by omega⟩
      rw [optimalAux, optimalAux, if_pos hce, if_pos hce]
      congr 1
      have hgt : c < nextIp w c (blockPfx w c e) := nextIp_gt w c e hc
      by_cases hc'e : nextIp w c (blockPfx w c e) ≤ e
      · exact ih g₁ (by omega) g₂ _ (by omega) (by omega) (by omega)
      · rw [optimalAux_stop w e g₁ _ (by omega), optimalAux_stop w e g₂ _ (by omega)]
    · rw [optimalAux_stop w e f₁ c (by omega), optimalAux_stop w e f₂ c (by omega)]

theorem optimal_blocks_stop (w s e : ℕ) (h : e < s) : optimal_blocks w s e = [] := by
  rw [optimal_blocks, show e + 1 - s = 0 by omega]
  rfl

theorem optimal_blocks_cons (w s e : ℕ) (hse : s ≤ e) (hs : s < 2 ^ w) (he : e < 2 ^ w) :
    optimal_blocks w s e =
      (s, blockPfx w s e) :: optimal_blocks w (nextIp w s (blockPfx w s e)) e := by
  rw [optimal_blocks, show e + 1 - s = (e - s) + 1 by omega, optimalAux, if_pos hse,
    optimal_blocks]
  congr 1
  have hgt : s < nextIp w s (blockPfx w s e) := nextIp_gt w s e hs
  by_cases hc'e : nextIp w s (blockPfx w s e) ≤ e
  · exact optimalAux_fuel w e he _ _ _ (by omega) (by omega) (by omega)
  · rw [optimalAux_stop w e _ _ (by omega), optimalAux_stop w e _ _ (by omega)]

theorem optimal_blocks_mem (w e : ℕ) (he : e < 2 ^ w) :
    ∀ n s, n = e + 1 - s → s < 2 ^ w →
      ∀ b ∈ optimal_blocks w s e, b.1 < 2 ^ w ∧ b.2 ≤ w ∧ 2 ^ (w - b.2) ∣ b.1 := by
  intro n
  induction n using Nat.strong_induction_on with
  | _ n ih =>
    intro s hn hs b hb
    by_cases hse : s ≤ e
    · rw [optimal_blocks_cons w s e hse hs he] at hb
      rcases List.mem_cons.1 hb with hb | hb
      · subst hb
        exact ⟨hs, (blockPfx_bounds w s e hs).2.1, (blockPfx_bounds w s e hs).2.2⟩
      · have hgt : s < nextIp w s (blockPfx w s e) := nextIp_gt w s e hs
        by_cases hc'e : nextIp w s (blockPfx w s e) ≤ e
        · exact ih (e + 1 - nextIp w s (blockPfx w s e)) (by omega) _ rfl (by omega) b hb
        · rw [optimal_blocks_stop w _ e (by omega)] at hb
          simp at hb
    · rw [optimal_blocks_stop w s e (by omega)] at hb
      simp at hb

theorem optimal_blocks_length (w e : ℕ) (he : e < 2 ^ w) :
    ∀ n s, n = e + 1 - s → s < 2 ^ w →
      (optimal_blocks w s e).length ≤ e + 1 - s := by
  intro n
  induction n using Nat.strong_induction_on with
  | _ n ih =>
    intro s hn hs
    by_cases hse : s ≤ e
    · rw [optimal_blocks_cons w s e hse hs he]
      have hgt : s < nextIp w s (blockPfx w s e) := nextIp_gt w s e hs
      by_cases hc'e : nextIp w s (blockPfx w s e) ≤ e
      · have := ih (e + 1 - nextIp w s (blockPfx w s e)) (by omega) _ rfl (by omega)
        simp only [List.length_cons]
        omega
      · rw [optimal_blocks_stop w _ e (by omega)]
        simp only [List.length_cons, List.length_nil]
        omega
    · rw [optimal_blocks_stop w s e (by omega)]
      simp only [List.length_nil]
      omega

/-! ## Greedy dominance: the emitted block is at least as large as any valid
aligned block starting at the same address -/

theorem valid_block_le_code (w c e j : ℕ) (hce : c ≤ e) (he : e < 2 ^ w)
    (hdvd : 2 ^ j ∣ c) (hfit : c + 2 ^ j ≤ e + 1) :
    j ≤ w ∧ blockPfx w c e ≤ w - j := by
  have hc : c < 2 ^ w := lt_of_le_of_lt hce he
  have hjw : j ≤ w := by
    by_contra h
    push_neg at h
    have : 2 ^ w < 2 ^ j := Nat.pow_lt_pow_right (by norm_num) h
    omega
  refine ⟨hjw, ?_⟩
  apply blockPfx_min w c e (w - j) hc ?_ (by omega)
    (by rw [show w - (w - j) = j by omega]; exact hdvd)
  by_cases hcee : c = e
  · rw [find_optimal_pfx, if_pos hcee]
    have hj0 : j = 0 := by
      have h1 : (2 : ℕ) ^ j ≤ 1 := by omega
      have h2 : (1 : ℕ) ≤ 2 ^ j := Nat.one_le_two_pow
      have h3 : (2 : ℕ) ^ j = 1 := le_antisymm h1 h2
      by_contra hne
      have : (2 : ℕ) ^ 1 ≤ 2 ^ j := Nat.pow_le_pow_right (by norm_num) (by omega)
      omega
    omega
  · rw [find_optimal_pfx_eq c e w hcee hc he]
    apply Nat.sub_le_sub_left
    rcases Nat.eq_zero_or_pos j with hj0 | hjpos
    · omega
    · have hlt : 2 ^ (j - 1) ≤ c ^^^ e := by
        by_contra hcon
        push_neg at hcon
        have hd2 : c ^^^ e < 2 ^ j :=
          lt_of_lt_of_le hcon (Nat.pow_le_pow_right (by norm_num) (by omega))
        have hxor : c ^^^ (c ^^^ e) = e := by
          rw [← Nat.xor_assoc, Nat.xor_self, Nat.zero_xor]
        have hadd : c ^^^ (c ^^^ e) = c + (c ^^^ e) :=
          xor_eq_add_of_dvd j c (c ^^^ e) hdvd hd2
        have heq : e = c + (c ^^^ e) := by rw [← hadd, hxor]
        have hsplit : (2 : ℕ) ^ j = 2 * 2 ^ (j - 1) := by
          rw [← pow_succ']
          congr 1
          omega
        have hpos : 0 < 2 ^ (j - 1) := Nat.two_pow_pos _
        omega
      have := Nat.lt_size.2 hlt
      omega

/-! ## Valid dyadic decompositions (the specification side of minimality) -/

theorem Tiles.nil_elim (s t : ℕ) (h : Tiles s t []) : s = t := by
  cases h
  rfl

/-- Splitting a tiling at an aligned cut `c + 2^K` that lies strictly inside
no block: every block that starts strictly between two consecutive multiples
of `2^K` is smaller than `2^K` and therefore cannot straddle the cut. -/
theorem tiles_split (K c t : ℕ) (hK : 2 ^ K ∣ c) (hct : c + 2 ^ K ≤ t) :
    ∀ L a, Tiles a t L → c < a → a < c + 2 ^ K →
      ∃ L₁ L₂, L = L₁ ++ L₂ ∧ Tiles (c + 2 ^ K) t L₂ := by
  intro L
  induction L with
  | nil =>
    intro a h h1 h2
    have := h.nil_elim
    omega
  | cons k L ih =>
    intro a h h1 h2
    cases h with
    | cons _ _ _ _ halign hfit rest =>
      have hkK : k < K := by
        by_contra hge
        push_neg at hge
        have hdvdK : 2 ^ K ∣ a := dvd_trans (pow_dvd_pow 2 hge) halign
        have hdvdsub : 2 ^ K ∣ a - c := Nat.dvd_sub' hdvdK hK
        have hle : 2 ^ K ≤ a - c := Nat.le_of_dvd (by omega) hdvdsub
        omega
      have hdvd2 : 2 ^ k ∣ c + 2 ^ K :=
        dvd_add (dvd_trans (pow_dvd_pow 2 hkK.le) hK) (pow_dvd_pow 2 hkK.le)
      have h3 : a + 2 ^ k ≤ c + 2 ^ K := by
        have hdvdsub : 2 ^ k ∣ c + 2 ^ K - a := Nat.dvd_sub' hdvd2 halign
        have hle : 2 ^ k ≤ c + 2 ^ K - a := Nat.le_of_dvd (by omega) hdvdsub
        omega
      by_cases heq : a + 2 ^ k = c + 2 ^ K
      · exact ⟨[k], L, rfl, heq ▸ rest⟩
      · obtain ⟨L₁, L₂, rfl, hT⟩ := ih (a + 2 ^ k) rest
          (by have := Nat.two_pow_pos k; omega) (by omega)
        exact ⟨k :: L₁, L₂, rfl, hT⟩

/-! ## Minimality of the emitted block count -/

theorem optimal_blocks_min_count (w e : ℕ) (he : e < 2 ^ w) :
    ∀ n s, n = e + 1 - s → s ≤ e → ∀ L, Tiles s (e + 1) L →
      (optimal_blocks w s e).length ≤ L.length := by
  intro n
  induction n using Nat.strong_induction_on with
  | _ n ih =>
    intro s hn hse L hT
    have hs : s < 2 ^ w := lt_of_le_of_lt hse he
    cases hT with
    | nil => omega
    | cons _ _ k L' halign hfit rest =>
      have hPb := blockPfx_bounds w s e hs
      have hnext : nextIp w s (blockPfx w s e) = s + 2 ^ (w - blockPfx w s e) :=
        nextIp_eq w s _ hs hPb.2.2
      obtain ⟨hjw, hPle⟩ := valid_block_le_code w s e k hse he halign hfit
      have hkK : k ≤ w - blockPfx w s e := by omega
      have hposk : 0 < 2 ^ k := Nat.two_pow_pos k
      have hposK : 0 < 2 ^ (w - blockPfx w s e) := Nat.two_pow_pos _
      have hmono : 2 ^ k ≤ 2 ^ (w - blockPfx w s e) :=
        Nat.pow_le_pow_right (by norm_num) hkK
      rw [optimal_blocks_cons w s e hse hs he, hnext]
      simp only [List.length_cons]
      by_cases hc'e : s + 2 ^ (w - blockPfx w s e) ≤ e
      · by_cases heqk : k = w - blockPfx w s e
        · have := ih (e + 1 - (s + 2 ^ k)) (by omega) (s + 2 ^ k) rfl (by omega) L' rest
          rw [heqk] at this
          omega
        · have hklt : k < w - blockPfx w s e := by omega
          have hstrict : 2 ^ k < 2 ^ (w - blockPfx w s e) :=
            Nat.pow_lt_pow_right (by norm_num) hklt
          obtain ⟨L₁, L₂, rfl, hT₂⟩ :=
            tiles_split (w - blockPfx w s e) s (e + 1) hPb.2.2 (by omega) L'
              (s + 2 ^ k) rest (by omega) (by omega)
          have := ih (e + 1 - (s + 2 ^ (w - blockPfx w s e))) (by omega)
            (s + 2 ^ (w - blockPfx w s e)) rfl (by omega) L₂ hT₂
          simp only [List.length_append]
          omega
      · rw [optimal_blocks_stop w _ e (by omega)]
        simp only [List.length_nil]
        omega

/-! ## No two adjacent emitted blocks are mergeable -/

theorem no_merge_pair (w s e : ℕ) (hse : s ≤ e) (hs : s < 2 ^ w) (he : e < 2 ^ w)
    (hnext : nextIp w s (blockPfx w s e) ≤ e) :
    ¬ mergeable w (s, blockPfx w s e) (nextIp w s (blockPfx w s e), blockPfx w (nextIp w s (blockPfx w s e)) e) := by
  rintro ⟨_, _, hdvd⟩
  simp only at hdvd
  have hPb := blockPfx_bounds w s e hs
  have hnexteq : nextIp w s (blockPfx w s e) = s + 2 ^ (w - blockPfx w s e) :=
    nextIp_eq w s _ hs hPb.2.2
  rcases Nat.eq_zero_or_pos (blockPfx w s e) with hP0 | hPpos
  · rw [hP0] at hnexteq hnext
    simp only [Nat.sub_zero] at hnexteq
    omega
  · have hdvd' : 2 ^ (w - (blockPfx w s e - 1)) ∣ s := by
      rw [show w - (blockPfx w s e - 1) = w - blockPfx w s e + 1 by omega]
      exact hdvd
    have hfle : find_optimal_pfx s e w ≤ blockPfx w s e := hPb.1
    have hnotless : ¬ find_optimal_pfx s e w ≤ blockPfx w s e - 1 := by
      intro hle
      have := blockPfx_min w s e (blockPfx w s e - 1) hs hle (by omega) hdvd'
      omega
    have hfeq : find_optimal_pfx s e w = blockPfx w s e := by omega
    by_cases hcee : s = e
    · rw [find_optimal_pfx, if_pos hcee] at hfeq
      rw [← hfeq] at hnexteq hnext
      simp only [Nat.sub_self, pow_zero] at hnexteq
      omega
    · rw [find_optimal_pfx_eq s e w hcee hs he] at hfeq
      have hsize : (s ^^^ e).size = w - blockPfx w s e := by
        have h1 : (s ^^^ e).size ≤ w := Nat.size_le.2 (Nat.xor_lt_two_pow hs he)
        omega
      have hxlt : s ^^^ e < 2 ^ (w - blockPfx w s e) := by
        rw [← hsize]
        exact Nat.lt_size_self _
      have hadd : s ^^^ (s ^^^ e) = s + (s ^^^ e) :=
        xor_eq_add_of_dvd (w - blockPfx w s e) s (s ^^^ e) hPb.2.2 hxlt
      have hxor : s ^^^ (s ^^^ e) = e := by
        rw [← Nat.xor_assoc, Nat.xor_self, Nat.zero_xor]
      have heq : e = s + (s ^^^ e) := by rw [← hadd, hxor]
      omega

theorem optimal_blocks_chain (w e : ℕ) (he : e < 2 ^ w) :
    ∀ n s, n = e + 1 - s → s < 2 ^ w →
      List.Chain' (fun b b' => ¬ mergeable w b b') (optimal_blocks w s e) := by
  intro n
  induction n using Nat.strong_induction_on with
  | _ n ih =>
    intro s hn hs
    by_cases hse : s ≤ e
    · rw [optimal_blocks_cons w s e hse hs he]
      have hgt : s < nextIp w s (blockPfx w s e) := nextIp_gt w s e hs
      by_cases hc'e : nextIp w s (blockPfx w s e) ≤ e
      · have hchain := ih (e + 1 - nextIp w s (blockPfx w s e)) (by omega) _ rfl (by omega)
        rw [optimal_blocks_cons w _ e hc'e (by omega) he] at hchain ⊢
        apply List.Chain'.cons ?_ hchain
        exact no_merge_pair w s e hse hs he hc'e
      · rw [optimal_blocks_stop w _ e (by omega)]
        simp
    · rw [optimal_blocks_stop w s e (by omega)]
      simp

/-! ## Decimal representation: structure and parse inverse -/

theorem decAux_mem (f : ℕ) :
    ∀ n c, n < f → c ∈ decAux f n → ∃ d, d < 10 ∧ c = Char.ofNat (48 + d) := by
  induction f with
  | zero => intro n c hn; omega
  | succ f ih =>
    intro n c hn hc
    rw [decAux] at hc
    by_cases h10 : n < 10
    · rw [if_pos h10] at hc
      simp only [List.mem_singleton] at hc
      exact ⟨n, h10, hc⟩
    · rw [if_neg h10] at hc
      rcases List.mem_append.1 hc with hc | hc
      · exact ih (n / 10) c (by omega) hc
      · simp only [List.mem_singleton] at hc
        exact ⟨n % 10, by omega, hc⟩

theorem decDigits_mem (n : ℕ) (c : Char) (hc : c ∈ decDigits n) :
    ∃ d, d < 10 ∧ c = Char.ofNat (48 + d) :=
  decAux_mem (n + 1) n c (by omega) hc

theorem decAux_ne_nil (f n : ℕ) (hn : n < f) : decAux f n ≠ [] := by
  cases f with
  | zero => omega
  | succ f =>
    rw [decAux]
    split
    · simp
    · simp

theorem decDigits_ne_nil (n : ℕ) : decDigits n ≠ [] := decAux_ne_nil (n + 1) n (by omega)

theorem digit_char_facts (d : ℕ) (hd : d < 10) :
    (Char.ofNat (48 + d)).isDigit = true ∧ isPyWS (Char.ofNat (48 + d)) = false ∧
      Char.ofNat (48 + d) ≠ '+' ∧ Char.ofNat (48 + d) ≠ '-' ∧
      Char.ofNat (48 + d) ≠ '_' ∧ Char.ofNat (48 + d) ≠ '.' ∧
      Char.ofNat (48 + d) ≠ ':' ∧ Char.ofNat (48 + d) ≠ '/' ∧
      digitVal (Char.ofNat (48 + d)) = d := by
  interval_cases d <;> exact ⟨rfl, rfl, by decide, by decide, by decide, by decide, by decide,
    by decide, rfl⟩

theorem decAux_foldl (f : ℕ) :
    ∀ n acc, n < f →
      List.foldl (fun a c => a * 10 + digitVal c) acc (decAux f n) =
        acc * 10 ^ (decAux f n).length + n := by
  induction f with
  | zero => intro n acc hn; omega
  | succ f ih =>
    intro n acc hn
    rw [decAux]
    by_cases h10 : n < 10
    · rw [if_pos h10]
      simp only [List.foldl_cons, List.foldl_nil, List.length_singleton, pow_one]
      rw [(digit_char_facts n h10).2.2.2.2.2.2.2.2]
    · rw [if_neg h10]
      rw [List.foldl_append, List.length_append]
      rw [ih (n / 10) acc (by omega)]
      simp only [List.foldl_cons, List.foldl_nil, List.length_singleton]
      rw [(digit_char_facts (n % 10) (by omega)).2.2.2.2.2.2.2.2]
      rw [pow_succ]
      have : 10 * (n / 10) + n % 10 = n := Nat.div_add_mod n 10
      ring_nf
      omega

theorem digitsVal_decDigits (n : ℕ) : digitsVal (decDigits n) = n := by
  rw [digitsVal, decDigits, decAux_foldl (n + 1) n 0 (by omega)]
  simp

theorem pyIsDigitStr_decDigits (n : ℕ) : pyIsDigitStr (decDigits n) = true := by
  rw [pyIsDigitStr]
  have h1 : ¬ (decDigits n).isEmpty = true := by
    rw [List.isEmpty_iff]
    exact decDigits_ne_nil n
  simp only [Bool.and_eq_true, Bool.not_eq_true']
  constructor
  · rw [Bool.not_eq_true] at h1
    exact h1
  · rw [List.all_eq_true]
    intro c hc
    obtain ⟨d, hd, rfl⟩ := decDigits_mem n c hc
    exact (digit_char_facts d hd).1

/-! ## `pyInt10` on canonical decimal digits -/

theorem pyStrip_eq_self (l : List Char) (h : ∀ c ∈ l, isPyWS c = false) :
    pyStrip l = l := by
  rw [pyStrip]
  have h1 : l.dropWhile isPyWS = l := by
    cases l with
    | nil => rfl
    | cons c rest => rw [List.dropWhile_cons_of_neg (by simp [h c (by simp)])]
  rw [h1]
  have h2 : l.reverse.dropWhile isPyWS = l.reverse := by
    cases hrev : l.reverse with
    | nil => rfl
    | cons c rest =>
      rw [List.dropWhile_cons_of_neg]
      simp only [Bool.not_eq_true]
      apply h
      have : c ∈ l.reverse := by rw [hrev]; simp
      simpa using this
  rw [h2, List.reverse_reverse]

theorem pyDigitsAux_all_digits (l : List Char) :
    ∀ acc, (∀ c ∈ l, c.isDigit = true ∧ c ≠ '_') →
      pyDigitsAux acc l = some (List.foldl (fun a c => a * 10 + digitVal c) acc l) := by
  induction l with
  | nil => intro acc h; rfl
  | cons c rest ih =>
    intro acc h
    rw [pyDigitsAux.eq_def]
    simp only [(h c (by simp)).2, (h c (by simp)).1, if_false, if_true, ite_false, ite_true]
    rw [ih _ (fun c' hc' => h c' (by simp [hc']))]
    rfl

theorem pyInt10_decDigits (n : ℕ) : pyInt10 (decDigits n) = some (n : ℤ) := by
  have hmem := decDigits_mem n
  have hstrip : pyStrip (decDigits n) = decDigits n := by
    apply pyStrip_eq_self
    intro c hc
    obtain ⟨d, hd, rfl⟩ := hmem c hc
    exact (digit_char_facts d hd).2.1
  obtain ⟨c, rest, hcons⟩ : ∃ c rest, decDigits n = c :: rest := by
    cases hD : decDigits n with
    | nil => exact absurd hD (decDigits_ne_nil n)
    | cons c rest => exact ⟨c, rest, rfl⟩
  obtain ⟨d, hd, hcd⟩ := hmem c (by rw [hcons]; simp)
  have hfacts := digit_char_facts d hd
  have hstart : pyDigitsStart (decDigits n) = some n := by
    rw [hcons, pyDigitsStart, if_pos (by rw [hcd]; exact hfacts.1)]
    rw [pyDigitsAux_all_digits rest (digitVal c) ?_]
    · have := digitsVal_decDigits n
      rw [digitsVal, hcons] at this
      simp only [List.foldl_cons, Nat.zero_mul, Nat.zero_add] at this
      rw [this]
    · intro c' hc'
      obtain ⟨d', hd', rfl⟩ := hmem c' (by rw [hcons]; simp [hc'])
      exact ⟨(digit_char_facts d' hd').1, (digit_char_facts d' hd').2.2.2.2.1⟩
  have hcp : c ≠ '+' := by rw [hcd]; exact hfacts.2.2.1
  have hcm : c ≠ '-' := by rw [hcd]; exact hfacts.2.2.2.1
  rw [pyInt10, hstrip, hcons]
  simp only [pyIntCore10, if_neg hcp, if_neg hcm]
  rw [← hcons, hstart]
  rfl

/-! ## Split/join inverses -/

theorem pySplitOn_ne_nil (sep : Char) (l : List Char) : pySplitOn sep l ≠ [] := by
  cases l with
  | nil => simp [pySplitOn]
  | cons c rest =>
    rw [pySplitOn]
    cases h : pySplitOn sep rest with
    | nil => simp
    | cons g gs =>
      dsimp only
      split <;> simp

theorem pySplitOn_no_sep (sep : Char) (l : List Char) (h : sep ∉ l) :
    pySplitOn sep l = [l] := by
  induction l with
  | nil => rfl
  | cons c rest ih =>
    rw [pySplitOn, ih (fun hc => h (by simp [hc]))]
    dsimp only
    rw [if_neg (fun hc => h (by simp [← hc]))]

theorem pySplitOn_append (sep : Char) (g t : List Char) (h : sep ∉ g) :
    pySplitOn sep (g ++ sep :: t) = g :: pySplitOn sep t := by
  induction g with
  | nil =>
    simp only [List.nil_append]
    rw [pySplitOn]
    cases ht : pySplitOn sep t with
    | nil => exact absurd ht (pySplitOn_ne_nil sep t)
    | cons g' gs' =>
      dsimp only
      rw [if_pos rfl]
  | cons c g' ih =>
    simp only [List.cons_append]
    rw [pySplitOn, ih (fun hc => h (by simp [hc]))]
    dsimp only
    rw [if_neg (fun hc => h (by simp [← hc]))]

theorem pySplitOn_pyJoin (sep : Char) :
    ∀ gs : List (List Char), gs ≠ [] → (∀ g ∈ gs, sep ∉ g) →
      pySplitOn sep (pyJoin sep gs) = gs := by
  intro gs
  induction gs with
  | nil => intro h; exact absurd rfl h
  | cons g gs ih =>
    intro _ hsep
    cases gs with
    | nil => exact pySplitOn_no_sep sep g (hsep g (by simp))
    | cons g' gs' =>
      rw [pyJoin, pySplitOn_append sep g _ (hsep g (by simp))]
      rw [ih (by simp) (fun x hx => hsep x (by simp [hx]))]

theorem pyJoin_mem (sep : Char) :
    ∀ gs (c : Char), c ∈ pyJoin sep gs → c = sep ∨ ∃ g ∈ gs, c ∈ g := by
  intro gs
  induction gs with
  | nil => intro c hc; simp [pyJoin] at hc
  | cons g gs ih =>
    intro c hc
    cases gs with
    | nil =>
      right
      exact ⟨g, by simp, hc⟩
    | cons g' gs' =>
      rw [pyJoin] at hc
      rcases List.mem_append.1 hc with hc | hc
      · exact Or.inr ⟨g, by simp, hc⟩
      · rcases List.mem_cons.1 hc with hc | hc
        · exact Or.inl hc
        · rcases ih c hc with h | ⟨g₂, hg₂, hcg₂⟩
          · exact Or.inl h
          · exact Or.inr ⟨g₂, by simp [List.mem_cons.1 hg₂], hcg₂⟩

theorem pyJoin_sep_mem (sep : Char) (g g' : List Char) (gs : List (List Char)) :
    sep ∈ pyJoin sep (g :: g' :: gs) := by
  rw [pyJoin]
  simp

/-! ## `int_to_ipv4_str` on ℕ values and the v4 round trip -/

theorem int_fdiv_coe (m n : ℕ) : Int.fdiv (m : ℤ) (n : ℤ) = ((m / n : ℕ) : ℤ) := by
  cases m with
  | zero => rw [Nat.zero_div]; rfl
  | succ m => rfl

theorem int_emod_coe (m n : ℕ) : Int.emod (m : ℤ) (n : ℤ) = ((m % n : ℕ) : ℤ) := rfl

theorem ipv4Groups_coe (n k : ℕ) :
    ipv4Groups (n : ℤ) (k + 1) = ipv4Groups ((n / 256 : ℕ) : ℤ) k ++ [decDigits (n % 256)] := by
  rw [ipv4Groups, show (256 : ℤ) = ((256 : ℕ) : ℤ) by norm_num, int_fdiv_coe, int_emod_coe]
  rw [Int.toNat_natCast]

theorem ipv4Groups_four (n : ℕ) :
    ipv4Groups (n : ℤ) 4 = [decDigits (n / 16777216 % 256), decDigits (n / 65536 % 256),
      decDigits (n / 256 % 256), decDigits (n % 256)] := by
  rw [ipv4Groups_coe, ipv4Groups_coe, ipv4Groups_coe, ipv4Groups_coe,
    show ipv4Groups ((n / 256 / 256 / 256 / 256 : ℕ) : ℤ) 0 = [] from rfl]
  simp only [List.nil_append, List.cons_append, List.singleton_append, Nat.div_div_eq_div_mul]

theorem not_not_range (m : ℕ) (hm : m < 256) : ¬¬((0:ℤ) ≤ (m:ℤ) ∧ (m:ℤ) ≤ 255) := by
  push_neg
  constructor
  · exact_mod_cast Nat.zero_le m
  · exact_mod_cast Nat.lt_succ_iff.1 hm

theorem ipv4_roundtrip (n : ℕ) (hn : n < 2 ^ 32) :
    ipv4_to_int (int_to_ipv4_str (n : ℤ)).data = Except.ok n := by
  have hgroups := ipv4Groups_four n
  have hdata : (int_to_ipv4_str (n : ℤ)).data = pyJoin '.' (ipv4Groups (n : ℤ) 4) := rfl
  have hnodot : ∀ g ∈ ipv4Groups (n : ℤ) 4, '.' ∉ g := by
    rw [hgroups]
    intro g hg hdot
    simp only [List.mem_cons, List.not_mem_nil, or_false] at hg
    rcases hg with rfl | rfl | rfl | rfl <;>
      · obtain ⟨d, hd, hcd⟩ := decDigits_mem _ _ hdot
        exact (digit_char_facts d hd).2.2.2.2.2.1 hcd.symm
  rw [ipv4_to_int, hdata,
    pySplitOn_pyJoin '.' _ (by rw [hgroups]; simp) hnodot, hgroups, if_neg (by simp)]
  have hp1 := pyInt10_decDigits (n / 16777216 % 256)
  have hp2 := pyInt10_decDigits (n / 65536 % 256)
  have hp3 := pyInt10_decDigits (n / 256 % 256)
  have hp4 := pyInt10_decDigits (n % 256)
  simp only [ipv4Fold, hp1, hp2, hp3, hp4]
  rw [if_neg (not_not_range _ (Nat.mod_lt _ (by norm_num))),
    if_neg (not_not_range _ (Nat.mod_lt _ (by norm_num))),
    if_neg (not_not_range _ (Nat.mod_lt _ (by norm_num))),
    if_neg (not_not_range _ (Nat.mod_lt _ (by norm_num)))]
  congr 1
  simp only [Int.toNat_natCast, Nat.shiftLeft_eq]
  norm_num
  omega

/-! ## Hexadecimal groups and the v6 round trip -/

theorem hex_char_facts (d : ℕ) (hd : d < 16) :
    isPyHex (hexChar d) = true ∧ hexVal (hexChar d) = d ∧ hexChar d ≠ ':' ∧
      hexChar d ≠ '/' ∧ hexChar d ≠ '+' ∧ hexChar d ≠ '-' ∧ hexChar d ≠ '_' ∧
      hexChar d ≠ 'x' ∧ hexChar d ≠ 'X' ∧ isPyWS (hexChar d) = false ∧ hexChar d ≠ '.' := by
  interval_cases d <;> decide

theorem hex4_mem (m : ℕ) (c : Char) (hc : c ∈ hex4 m) :
    ∃ d, d < 16 ∧ c = hexChar d := by
  simp only [hex4, List.mem_cons, List.not_mem_nil, or_false] at hc
  rcases hc with rfl | rfl | rfl | rfl
  · exact ⟨_, Nat.mod_lt _ (by norm_num), rfl⟩
  · exact ⟨_, Nat.mod_lt _ (by norm_num), rfl⟩
  · exact ⟨_, Nat.mod_lt _ (by norm_num), rfl⟩
  · exact ⟨_, Nat.mod_lt _ (by norm_num), rfl⟩

theorem pyHexAux_all_hex (l : List Char) :
    ∀ acc, (∀ c ∈ l, isPyHex c = true ∧ c ≠ '_') →
      pyHexAux acc l = some (List.foldl (fun a c => a * 16 + hexVal c) acc l) := by
  induction l with
  | nil => intro acc h; rfl
  | cons c rest ih =>
    intro acc h
    rw [pyHexAux.eq_def]
    simp only [(h c (by simp)).2, (h c (by simp)).1, if_false, if_true, ite_false, ite_true]
    rw [ih _ (fun c' hc' => h c' (by simp [hc']))]
    rfl

theorem pyIntCore16_four (d₁ d₂ d₃ d₄ : ℕ) (h₁ : d₁ < 16) (h₂ : d₂ < 16) (h₃ : d₃ < 16) (h₄ : d₄ < 16) :
    pyIntCore16 [hexChar d₁, hexChar d₂, hexChar d₃, hexChar d₄] =
      some ((((d₁ * 16 + d₂) * 16 + d₃) * 16 + d₄ : ℕ) : ℤ) := by
  have hf1 := hex_char_facts d₁ h₁
  have hf2 := hex_char_facts d₂ h₂
  have hf3 := hex_char_facts d₃ h₃
  have hf4 := hex_char_facts d₄ h₄
  rw [pyIntCore16.eq_def]
  dsimp only
  rw [if_neg hf1.2.2.2.2.1, if_neg hf1.2.2.2.2.2.1]
  rw [pyHexBody.eq_def]
  dsimp only
  rw [if_neg (by
    simp only [Bool.and_eq_true, Bool.or_eq_true, decide_eq_true_eq, not_and_or]
    right
    rintro (h | h)
    · exact hf2.2.2.2.2.2.2.2.1 h
    · exact hf2.2.2.2.2.2.2.2.2.1 h)]
  rw [pyHexStart.eq_def]
  dsimp only
  rw [if_pos hf1.1]
  rw [pyHexAux_all_hex _ _ (by
    intro c' hc'
    simp only [List.mem_cons, List.not_mem_nil, or_false] at hc'
    rcases hc' with rfl | rfl | rfl
    · exact ⟨hf2.1, hf2.2.2.2.2.2.2.1⟩
    · exact ⟨hf3.1, hf3.2.2.2.2.2.2.1⟩
    · exact ⟨hf4.1, hf4.2.2.2.2.2.2.1⟩)]
  simp only [List.foldl_cons, List.foldl_nil]
  rw [hf1.2.1, hf2.2.1, hf3.2.1, hf4.2.1]
  rfl

theorem pyInt16_hex4 (m : ℕ) (hm : m < 65536) : pyInt16 (hex4 m) = some (m : ℤ) := by
  have hstrip : pyStrip (hex4 m) = hex4 m := by
    apply pyStrip_eq_self
    intro c hc
    obtain ⟨d, hd, rfl⟩ := hex4_mem m c hc
    exact (hex_char_facts d hd).2.2.2.2.2.2.2.2.2.1
  rw [pyInt16, hstrip]
  rw [show hex4 m = [hexChar (m / 4096 % 16), hexChar (m / 256 % 16), hexChar (m / 16 % 16),
    hexChar (m % 16)] from rfl]
  rw [pyIntCore16_four _ _ _ _ (Nat.mod_lt _ (by norm_num)) (Nat.mod_lt _ (by norm_num))
    (Nat.mod_lt _ (by norm_num)) (Nat.mod_lt _ (by norm_num))]
  congr 1
  have h1 : m / 16 / 16 = m / 256 := by rw [Nat.div_div_eq_div_mul]
  have h2 : m / 256 / 16 = m / 4096 := by rw [Nat.div_div_eq_div_mul]
  have h3 : m / 4096 / 16 = m / 65536 := by rw [Nat.div_div_eq_div_mul]
  have h4 : m / 65536 = 0 := Nat.div_eq_of_lt hm
  omega

theorem ipv6Groups_coe (n k : ℕ) :
    ipv6Groups (n : ℤ) (k + 1) = ipv6Groups ((n / 65536 : ℕ) : ℤ) k ++ [hex4 (n % 65536)] := by
  rw [ipv6Groups, show (65536 : ℤ) = ((65536 : ℕ) : ℤ) by norm_num, int_fdiv_coe, int_emod_coe]
  rw [Int.toNat_natCast]

theorem ipv6Groups_eight (n : ℕ) :
    ipv6Groups (n : ℤ) 8 =
      [hex4 (n / 65536 ^ 7 % 65536), hex4 (n / 65536 ^ 6 % 65536), hex4 (n / 65536 ^ 5 % 65536),
        hex4 (n / 65536 ^ 4 % 65536), hex4 (n / 65536 ^ 3 % 65536), hex4 (n / 65536 ^ 2 % 65536),
        hex4 (n / 65536 % 65536), hex4 (n % 65536)] := by
  rw [ipv6Groups_coe, ipv6Groups_coe, ipv6Groups_coe, ipv6Groups_coe, ipv6Groups_coe,
    ipv6Groups_coe, ipv6Groups_coe, ipv6Groups_coe,
    show ipv6Groups ((n / 65536 / 65536 / 65536 / 65536 / 65536 / 65536 / 65536 / 65536 : ℕ) : ℤ)
      0 = [] from rfl]
  simp only [List.nil_append, List.cons_append, List.singleton_append, Nat.div_div_eq_div_mul]
  norm_num

/-! ## The expansion is the identity on colon-joined nonempty groups -/

theorem containsSub_append_no_hit (g l : List Char) (h : ':' ∉ g) :
    containsSub [':', ':'] (g ++ l) = containsSub [':', ':'] l := by
  induction g with
  | nil => rfl
  | cons c g' ih =>
    simp only [List.cons_append]
    rw [containsSub]
    have hc : ¬ (c = ':') := fun hc => h (by simp [hc])
    have hpre : [':', ':'].isPrefixOf (c :: (g' ++ l)) = false := by
      simp only [List.isPrefixOf]
      simp [beq_eq_false_iff_ne]
      intro hcc
      exact absurd hcc.symm hc
    rw [hpre]
    simp only [Bool.false_or]
    exact ih (fun hg => h (by simp [hg]))

theorem pyJoin_cons_head (c : Char) (g : List Char) (gs : List (List Char)) :
    ∃ t, pyJoin ':' ((c :: g) :: gs) = c :: t := by
  cases gs with
  | nil => exact ⟨g, rfl⟩
  | cons g' gs' => exact ⟨g ++ ':' :: pyJoin ':' (g' :: gs'), by rw [pyJoin]; rfl⟩

theorem containsSub_join_false :
    ∀ gs : List (List Char), gs ≠ [] → (∀ g ∈ gs, g ≠ [] ∧ ':' ∉ g) →
      containsSub [':', ':'] (pyJoin ':' gs) = false := by
  intro gs
  induction gs with
  | nil => intro h; exact absurd rfl h
  | cons g gs ih =>
    intro _ hprops
    cases gs with
    | nil =>
      show containsSub [':', ':'] (pyJoin ':' [g]) = false
      rw [show pyJoin ':' [g] = g ++ [] by simp [pyJoin]]
      rw [containsSub_append_no_hit g [] (hprops g (by simp)).2]
      rfl
    | cons g' gs' =>
      rw [pyJoin, containsSub_append_no_hit g _ (hprops g (by simp)).2]
      obtain ⟨c, g'', rfl⟩ : ∃ c t, g' = c :: t := by
        cases hg' : g' with
        | nil => exact absurd hg' (hprops g' (by simp)).1
        | cons c t => exact ⟨c, t, rfl⟩
      obtain ⟨t, ht⟩ := pyJoin_cons_head c g'' gs'
      rw [containsSub, ht]
      have hc : ¬ (c = ':') := fun hc => (hprops (c :: g'') (by simp)).2 (by simp [hc])
      have hpre : [':', ':'].isPrefixOf (':' :: c :: t) = false := by
        simp only [List.isPrefixOf]
        simp [beq_eq_false_iff_ne]
        intro hcc
        exact absurd hcc.symm hc
      rw [hpre, ← ht]
      simp only [Bool.false_or]
      exact ih (by simp) (fun x hx => hprops x (by simp [hx]))

/-! ## The v6 round trip -/

theorem hex4_isEmpty (m : ℕ) : (hex4 m).isEmpty = false := rfl

theorem not_not_range16 (m : ℕ) (hm : m < 65536) : ¬¬((0:ℤ) ≤ (m:ℤ) ∧ (m:ℤ) ≤ 65535) := by
  push_neg
  constructor
  · exact_mod_cast Nat.zero_le m
  · exact_mod_cast Nat.lt_succ_iff.1 hm

theorem ipv6_roundtrip (n : ℕ) (hn : n < 2 ^ 128) :
    ipv6_to_int (int_to_ipv6_str (n : ℤ)).data = Except.ok n := by
  have hdata : (int_to_ipv6_str (n : ℤ)).data = pyJoin ':' (ipv6Groups (n : ℤ) 8) := rfl
  have hgroups := ipv6Groups_eight n
  have hprops : ∀ g ∈ ipv6Groups (n : ℤ) 8, g ≠ [] ∧ ':' ∉ g := by
    rw [hgroups]
    intro g hg
    have hcolon : ∀ m : ℕ, ':' ∉ hex4 m := by
      intro m hmem
      obtain ⟨d, hd, hcd⟩ := hex4_mem m _ hmem
      exact (hex_char_facts d hd).2.2.1 hcd.symm
    have hne : ∀ m : ℕ, hex4 m ≠ [] := by intro m; simp [hex4]
    simp only [List.mem_cons, List.not_mem_nil, or_false] at hg
    rcases hg with rfl | rfl | rfl | rfl | rfl | rfl | rfl | rfl <;> exact ⟨hne _, hcolon _⟩
  have hfalse := containsSub_join_false (ipv6Groups (n : ℤ) 8)
    (by rw [hgroups]; simp) hprops
  have hnoexp : ipv6Expand (pyJoin ':' (ipv6Groups (n : ℤ) 8)) =
      pyJoin ':' (ipv6Groups (n : ℤ) 8) := by
    rw [ipv6Expand, hfalse]
    rfl
  rw [ipv6_to_int, hdata, hnoexp,
    pySplitOn_pyJoin ':' _ (by rw [hgroups]; simp) (fun g hg => (hprops g hg).2),
    hgroups, if_neg (by simp)]
  have hp7 := pyInt16_hex4 (n / 65536 ^ 7 % 65536) (Nat.mod_lt _ (by norm_num))
  have hp6 := pyInt16_hex4 (n / 65536 ^ 6 % 65536) (Nat.mod_lt _ (by norm_num))
  have hp5 := pyInt16_hex4 (n / 65536 ^ 5 % 65536) (Nat.mod_lt _ (by norm_num))
  have hp4 := pyInt16_hex4 (n / 65536 ^ 4 % 65536) (Nat.mod_lt _ (by norm_num))
  have hp3 := pyInt16_hex4 (n / 65536 ^ 3 % 65536) (Nat.mod_lt _ (by norm_num))
  have hp2 := pyInt16_hex4 (n / 65536 ^ 2 % 65536) (Nat.mod_lt _ (by norm_num))
  have hp1 := pyInt16_hex4 (n / 65536 % 65536) (Nat.mod_lt _ (by norm_num))
  have hp0 := pyInt16_hex4 (n % 65536) (Nat.mod_lt _ (by norm_num))
  simp only [ipv6Fold, hex4_isEmpty, Bool.false_eq_true, if_false,
    hp7, hp6, hp5, hp4, hp3, hp2, hp1, hp0]
  rw [if_neg (not_not_range16 _ (Nat.mod_lt _ (by norm_num))),
    if_neg (not_not_range16 _ (Nat.mod_lt _ (by norm_num))),
    if_neg (not_not_range16 _ (Nat.mod_lt _ (by norm_num))),
    if_neg (not_not_range16 _ (Nat.mod_lt _ (by norm_num))),
    if_neg (not_not_range16 _ (Nat.mod_lt _ (by norm_num))),
    if_neg (not_not_range16 _ (Nat.mod_lt _ (by norm_num))),
    if_neg (not_not_range16 _ (Nat.mod_lt _ (by norm_num))),
    if_neg (not_not_range16 _ (Nat.mod_lt _ (by norm_num)))]
  congr 1
  simp only [Int.toNat_natCast, Nat.shiftLeft_eq]
  have e2 : n / 65536 / 65536 = n / 65536 ^ 2 := by
    rw [Nat.div_div_eq_div_mul, ← pow_two]
  have e3 : n / 65536 ^ 2 / 65536 = n / 65536 ^ 3 := by
    rw [Nat.div_div_eq_div_mul, ← pow_succ]
  have e4 : n / 65536 ^ 3 / 65536 = n / 65536 ^ 4 := by
    rw [Nat.div_div_eq_div_mul, ← pow_succ]
  have e5 : n / 65536 ^ 4 / 65536 = n / 65536 ^ 5 := by
    rw [Nat.div_div_eq_div_mul, ← pow_succ]
  have e6 : n / 65536 ^ 5 / 65536 = n / 65536 ^ 6 := by
    rw [Nat.div_div_eq_div_mul, ← pow_succ]
  have e7 : n / 65536 ^ 6 / 65536 = n / 65536 ^ 7 := by
    rw [Nat.div_div_eq_div_mul, ← pow_succ]
  have e8 : n / 65536 ^ 7 / 65536 = 0 := by
    rw [Nat.div_div_eq_div_mul, ← pow_succ]
    apply Nat.div_eq_of_lt
    calc n < 2 ^ 128 := hn
    _ = 65536 ^ 8 := by norm_num
  norm_num
  omega

/-! ## Bounds and inversion for the parsers -/

theorem contains_eq_false_of_not_mem {l : List Char} {a : Char} (h : a ∉ l) :
    l.contains a = false := by
  induction l with
  | nil => rfl
  | cons c rest ih =>
    rw [List.contains_cons]
    have h1 : ¬ (a = c) := fun hc => h (by simp [hc])
    have h2 : rest.contains a = false := ih (fun hc => h (by simp [hc]))
    simp only [h2, Bool.or_false, beq_eq_false_iff_ne, ne_eq]
    exact h1

theorem contains_eq_true_of_mem {l : List Char} {a : Char} (h : a ∈ l) :
    l.contains a = true := by
  induction l with
  | nil => simp at h
  | cons c rest ih =>
    rw [List.contains_cons]
    rcases List.mem_cons.1 h with rfl | h
    · simp
    · simp only [ih h, Bool.or_true]

theorem ipv4Fold_cons_ok (r v : ℕ) (p : List Char) (parts : List (List Char)) :
    ipv4Fold r (p :: parts) = .ok v ↔
      ∃ o : ℤ, pyInt10 p = some o ∧ 0 ≤ o ∧ o ≤ 255 ∧
        ipv4Fold ((r <<< 8) + o.toNat) parts = .ok v := by
  constructor
  · intro h
    rw [ipv4Fold.eq_def] at h
    dsimp only at h
    cases hp : pyInt10 p with
    | none => rw [hp] at h; exact Except.noConfusion h
    | some o =>
      rw [hp] at h
      dsimp only at h
      by_cases hr : ¬(0 ≤ o ∧ o ≤ 255)
      · rw [if_pos hr] at h; exact Except.noConfusion h
      · rw [if_neg hr] at h
        push_neg at hr
        exact ⟨o, rfl, hr.1, hr.2, h⟩
  · rintro ⟨o, hp, h0, h255, h⟩
    rw [ipv4Fold.eq_def]
    dsimp only
    rw [hp]
    dsimp only
    rw [if_neg (fun hno => hno ⟨h0, h255⟩)]
    exact h

theorem ipv6Fold_cons_ok (r v : ℕ) (p : List Char) (parts : List (List Char)) :
    ipv6Fold r (p :: parts) = .ok v ↔
      p.isEmpty = false ∧ ∃ o : ℤ, pyInt16 p = some o ∧ 0 ≤ o ∧ o ≤ 65535 ∧
        ipv6Fold ((r <<< 16) + o.toNat) parts = .ok v := by
  constructor
  · intro h
    rw [ipv6Fold.eq_def] at h
    dsimp only at h
    by_cases he : p.isEmpty
    · rw [if_pos he] at h; exact Except.noConfusion h
    · rw [if_neg he] at h
      refine ⟨by simpa using he, ?_⟩
      cases hp : pyInt16 p with
      | none => rw [hp] at h; exact Except.noConfusion h
      | some o =>
        rw [hp] at h
        dsimp only at h
        by_cases hr : ¬(0 ≤ o ∧ o ≤ 65535)
        · rw [if_pos hr] at h; exact Except.noConfusion h
        · push_neg at hr
          rw [if_neg (by push_neg; exact hr)] at h
          exact ⟨o, rfl, hr.1, hr.2, h⟩
  · rintro ⟨he, o, hp, h0, h65535, h⟩
    rw [ipv6Fold.eq_def]
    dsimp only
    rw [if_neg (by simp [he]), hp]
    dsimp only
    rw [if_neg (by push_neg; exact ⟨h0, h65535⟩)]
    exact h

theorem ipv4Fold_bound :
    ∀ (parts : List (List Char)) (r v : ℕ), ipv4Fold r parts = .ok v →
      v < (r + 1) * 256 ^ parts.length := by
  intro parts
  induction parts with
  | nil =>
    intro r v h
    injection h with h
    subst h
    simp
  | cons p ps ih =>
    intro r v h
    obtain ⟨o, hp, h0, h255, h⟩ := (ipv4Fold_cons_ok r v p ps).1 h
    have hb := ih _ _ h
    have ht : o.toNat ≤ 255 := by omega
    simp only [List.length_cons]
    calc v < ((r <<< 8) + o.toNat + 1) * 256 ^ ps.length := hb
    _ ≤ ((r + 1) * 256) * 256 ^ ps.length := by
        apply Nat.mul_le_mul_right
        rw [Nat.shiftLeft_eq]
        omega
    _ = (r + 1) * 256 ^ (ps.length + 1) := by ring

theorem ipv6Fold_bound :
    ∀ (parts : List (List Char)) (r v : ℕ), ipv6Fold r parts = .ok v →
      v < (r + 1) * 65536 ^ parts.length := by
  intro parts
  induction parts with
  | nil =>
    intro r v h
    injection h with h
    subst h
    simp
  | cons p ps ih =>
    intro r v h
    obtain ⟨-, o, hp, h0, h65535, h⟩ := (ipv6Fold_cons_ok r v p ps).1 h
    have hb := ih _ _ h
    have ht : o.toNat ≤ 65535 := by omega
    simp only [List.length_cons]
    calc v < ((r <<< 16) + o.toNat + 1) * 65536 ^ ps.length := hb
    _ ≤ ((r + 1) * 65536) * 65536 ^ ps.length := by
        apply Nat.mul_le_mul_right
        rw [Nat.shiftLeft_eq]
        omega
    _ = (r + 1) * 65536 ^ (ps.length + 1) := by ring

theorem ipv4_to_int_lt (l : List Char) (v : ℕ) (h : ipv4_to_int l = .ok v) : v < 2 ^ 32 := by
  rw [ipv4_to_int] at h
  by_cases hlen : (pySplitOn '.' l).length ≠ 4
  · rw [if_pos hlen] at h; exact Except.noConfusion h
  · rw [if_neg hlen] at h
    push_neg at hlen
    have := ipv4Fold_bound _ _ _ h
    rw [hlen] at this
    norm_num at this
    omega

theorem ipv6_to_int_lt (l : List Char) (v : ℕ) (h : ipv6_to_int l = .ok v) : v < 2 ^ 128 := by
  rw [ipv6_to_int] at h
  by_cases hlen : (pySplitOn ':' (ipv6Expand l)).length ≠ 8
  · rw [if_pos hlen] at h; exact Except.noConfusion h
  · rw [if_neg hlen] at h
    push_neg at hlen
    have := ipv6Fold_bound _ _ _ h
    rw [hlen] at this
    norm_num at this
    omega

/-! ## Formatted addresses: character inventory and re-parsing -/

theorem int_to_ipv4_str_mem (n : ℕ) (c : Char) (hc : c ∈ (int_to_ipv4_str (n : ℤ)).data) :
    c = '.' ∨ ∃ d, d < 10 ∧ c = Char.ofNat (48 + d) := by
  have hdata : (int_to_ipv4_str (n : ℤ)).data = pyJoin '.' (ipv4Groups (n : ℤ) 4) := rfl
  rw [hdata] at hc
  rcases pyJoin_mem '.' _ c hc with h | ⟨g, hg, hcg⟩
  · exact Or.inl h
  · rw [ipv4Groups_four n] at hg
    simp only [List.mem_cons, List.not_mem_nil, or_false] at hg
    rcases hg with rfl | rfl | rfl | rfl <;> exact Or.inr (decDigits_mem _ _ hcg)

theorem int_to_ipv6_str_mem (n : ℕ) (c : Char) (hc : c ∈ (int_to_ipv6_str (n : ℤ)).data) :
    c = ':' ∨ ∃ d, d < 16 ∧ c = hexChar d := by
  have hdata : (int_to_ipv6_str (n : ℤ)).data = pyJoin ':' (ipv6Groups (n : ℤ) 8) := rfl
  rw [hdata] at hc
  rcases pyJoin_mem ':' _ c hc with h | ⟨g, hg, hcg⟩
  · exact Or.inl h
  · rw [ipv6Groups_eight n] at hg
    simp only [List.mem_cons, List.not_mem_nil, or_false] at hg
    rcases hg with rfl | rfl | rfl | rfl | rfl | rfl | rfl | rfl <;>
      exact Or.inr (hex4_mem _ _ hcg)

theorem int_to_ipv4_str_no_colon (n : ℕ) : ':' ∉ (int_to_ipv4_str (n : ℤ)).data := by
  intro hc
  rcases int_to_ipv4_str_mem n ':' hc with h | ⟨d, hd, h⟩
  · exact absurd h (by decide)
  · exact (digit_char_facts d hd).2.2.2.2.2.2.1 h.symm

theorem int_to_ipv4_str_no_slash (n : ℕ) : '/' ∉ (int_to_ipv4_str (n : ℤ)).data := by
  intro hc
  rcases int_to_ipv4_str_mem n '/' hc with h | ⟨d, hd, h⟩
  · exact absurd h (by decide)
  · exact (digit_char_facts d hd).2.2.2.2.2.2.2.1 h.symm

theorem int_to_ipv6_str_has_colon (n : ℕ) : ':' ∈ (int_to_ipv6_str (n : ℤ)).data := by
  have hdata : (int_to_ipv6_str (n : ℤ)).data = pyJoin ':' (ipv6Groups (n : ℤ) 8) := rfl
  rw [hdata, ipv6Groups_eight n]
  exact pyJoin_sep_mem ':' _ _ _

theorem int_to_ipv6_str_no_slash (n : ℕ) : '/' ∉ (int_to_ipv6_str (n : ℤ)).data := by
  intro hc
  rcases int_to_ipv6_str_mem n '/' hc with h | ⟨d, hd, h⟩
  · exact absurd h (by decide)
  · exact (hex_char_facts d hd).2.2.2.1 h.symm

theorem ipParse_fmt_v4 (n : ℕ) (hn : n < 2 ^ 32) :
    ipParse (int_to_ipv4_str (n : ℤ)) = .ok ⟨4, n⟩ := by
  have hv : ipVersion (int_to_ipv4_str (n : ℤ)).data = 4 := by
    rw [ipVersion, contains_eq_false_of_not_mem (int_to_ipv4_str_no_colon n)]
    rfl
  rw [ipParse, if_pos hv, ipv4_roundtrip n hn]
  rfl

theorem ipParse_fmt_v6 (n : ℕ) (hn : n < 2 ^ 128) :
    ipParse (int_to_ipv6_str (n : ℤ)) = .ok ⟨6, n⟩ := by
  have hv : ipVersion (int_to_ipv6_str (n : ℤ)).data = 6 := by
    rw [ipVersion, contains_eq_true_of_mem (int_to_ipv6_str_has_colon n)]
    rfl
  rw [ipParse, if_neg (by rw [hv]; norm_num), ipv6_roundtrip n hn]
  rfl

/-! ## Building `Network` objects from emitted CIDR strings -/

theorem string_data_slash_append (addr : String) (p : ℕ) :
    (addr ++ "/" ++ String.mk (decDigits p)).data = addr.data ++ '/' :: decDigits p := by
  simp [String.data_append]

theorem decDigits_no_slash (p : ℕ) : '/' ∉ decDigits p := by
  intro hc
  obtain ⟨d, hd, hcd⟩ := decDigits_mem p _ hc
  exact (digit_char_facts d hd).2.2.2.2.2.2.2.1 hcd.symm

theorem networkParse_build (addr : String) (v n p : ℕ)
    (hns : '/' ∉ addr.data)
    (hparse : ipParse addr = .ok ⟨v, n⟩)
    (hp : p ≤ (if v = 4 then 32 else 128)) :
    networkParse (addr ++ "/" ++ String.mk (decDigits p)) =
      .ok (calculate_network_values v p n) := by
  have hdata := string_data_slash_append addr p
  have hmem : '/' ∈ addr.data ++ '/' :: decDigits p := by simp
  rw [networkParse, hdata, if_neg (by rw [contains_eq_true_of_mem hmem]; simp)]
  rw [pySplitOn_append '/' _ _ hns, pySplitOn_no_sep '/' _ (decDigits_no_slash p)]
  dsimp only
  rw [if_neg (by rw [pyIsDigitStr_decDigits]; simp)]
  rw [show String.mk addr.data = addr from rfl, hparse]
  dsimp only
  rw [digitsVal_decDigits]
  rw [if_neg (by push_neg; exact ⟨Nat.zero_le p, hp⟩)]

theorem find_optimal_cidrs_eq (s₁ s₂ : String) (v n₁ n₂ : ℕ)
    (h₁ : ipParse s₁ = .ok ⟨v, n₁⟩) (h₂ : ipParse s₂ = .ok ⟨v, n₂⟩) :
    find_optimal_cidrs s₁ s₂ =
      (optimal_blocks (if v = 4 then 32 else 128)
        (if n₂ < n₁ then n₂ else n₁) (if n₂ < n₁ then n₁ else n₂)).map
        (cidrString v) := by
  rw [find_optimal_cidrs, h₁, h₂]
  dsimp only
  rw [if_neg (by simp)]

/-! ## Inversion of successful parses -/

theorem ipParse_ok_bound (s : String) (ip : IPv) (h : ipParse s = .ok ip) :
    (ip.version = 4 ∧ ip.ip_int < 2 ^ 32 ∧ ipv4_to_int s.data = .ok ip.ip_int) ∨
      (ip.version = 6 ∧ ip.ip_int < 2 ^ 128 ∧ ipv6_to_int s.data = .ok ip.ip_int) := by
  rw [ipParse] at h
  by_cases hv : ipVersion s.data = 4
  · rw [if_pos hv] at h
    cases h4 : ipv4_to_int s.data with
    | error e => rw [h4] at h; exact Except.noConfusion h
    | ok m =>
      rw [h4] at h
      injection h with h
      subst h
      refine Or.inl ⟨rfl, ipv4_to_int_lt _ _ h4, ?_⟩
      simp [h4]
  · rw [if_neg hv] at h
    cases h6 : ipv6_to_int s.data with
    | error e => rw [h6] at h; exact Except.noConfusion h
    | ok m =>
      rw [h6] at h
      injection h with h
      subst h
      refine Or.inr ⟨rfl, ipv6_to_int_lt _ _ h6, ?_⟩
      simp [h6]

theorem networkParse_ok_inv (s : String) (net : NetworkV) (h : networkParse s = .ok net) :
    ∃ v n p, net = calculate_network_values v p n ∧ p ≤ (if v = 4 then 32 else 128) ∧
      ((v = 4 ∧ n < 2 ^ 32) ∨ (v = 6 ∧ n < 2 ^ 128)) := by
  rw [networkParse] at h
  split at h
  · exact Except.noConfusion h
  · split at h
    · rename_i x ip_chars pfx_chars heq
      split at h
      · exact Except.noConfusion h
      · rename_i hdig
        cases hip : ipParse (String.mk ip_chars) with
        | error e => rw [hip] at h; exact Except.noConfusion h
        | ok ip =>
          rw [hip] at h
          dsimp only at h
          split at h
          · rename_i hv4
            split at h
            · exact Except.noConfusion h
            · rename_i hrange
              injection h with h
              push_neg at hrange
              refine ⟨ip.version, ip.ip_int, digitsVal pfx_chars, h.symm, ?_, ?_⟩
              · rw [if_pos hv4]
                exact hrange.2
              · rcases ipParse_ok_bound _ _ hip with ⟨hv, hb, -⟩ | ⟨hv, hb, -⟩
                · exact Or.inl ⟨hv, hb⟩
                · exact Or.inr ⟨hv, hb⟩
          · rename_i hv4
            split at h
            · exact Except.noConfusion h
            · rename_i hrange
              injection h with h
              push_neg at hrange
              refine ⟨ip.version, ip.ip_int, digitsVal pfx_chars, h.symm, ?_, ?_⟩
              · rw [if_neg hv4]
                exact hrange.2
              · rcases ipParse_ok_bound _ _ hip with ⟨hv, hb, -⟩ | ⟨hv, hb, -⟩
                · exact Or.inl ⟨hv, hb⟩
                · exact Or.inr ⟨hv, hb⟩
    · exact Except.noConfusion h

/-! ## Claim theorems -/

theorem maskHi_and_low (w k : ℕ) (hk : k ≤ w) : (2 ^ w - 2 ^ k) &&& (2 ^ k - 1) = 0 := by
  apply Nat.eq_of_testBit_eq
  intro i
  rw [Nat.testBit_and, two_pow_sub_two_pow_testBit w k i hk, Nat.testBit_two_pow_sub_one]
  simp only [Nat.zero_testBit, Bool.and_eq_false_iff]
  by_cases h1 : k ≤ i
  · right
    simp
    omega
  · left
    simp
    omega

/-- C7: every successfully constructed network descriptor has a prefix-aligned
base (`base & hostMask = 0` for `hostMask = 2^(width-prefix) - 1`), the base is
the input address with its low `width-prefix` bits cleared (so a non-aligned
host address is silently normalized down to its network rather than rejected,
as the closed conjunct shows on `192.168.1.77/24`), and the broadcast/last
address is `base | hostMask`. -/
theorem claim_C7 (s : String) (net : NetworkV) (h : networkParse s = Except.ok net) :
    net.network_address_int &&&
        (2 ^ ((if net.version = 4 then 32 else 128) - net.prefix_length) - 1) = 0 ∧
      net.network_address_int =
        net.ip_int / 2 ^ ((if net.version = 4 then 32 else 128) - net.prefix_length) *
          2 ^ ((if net.version = 4 then 32 else 128) - net.prefix_length) ∧
      net.broadcast_address_int =
        net.network_address_int |||
          (2 ^ ((if net.version = 4 then 32 else 128) - net.prefix_length) - 1) ∧
      (networkParse "192.168.1.77/24").map (fun k => k.network_address_int) =
        Except.ok 3232235776 := by
  obtain ⟨v, n, p, rfl, hpw, hv⟩ := networkParse_ok_inv s net h
  have hw : (if v = 4 then 32 else 128) = (if v = 4 then (32:ℕ) else 128) := rfl
  have hn : n < 2 ^ (if v = 4 then 32 else 128) := by
    rcases hv with ⟨hv4, hb⟩ | ⟨hv6, hb⟩
    · rw [if_pos hv4]; exact hb
    · by_cases h4 : v = 4
      · exfalso
        rw [hv6] at h4
        norm_num at h4
      · rw [if_neg h4]
        exact hb
  set w : ℕ := if v = 4 then 32 else 128 with hwdef
  have hfields : (calculate_network_values v p n).version = v ∧
      (calculate_network_values v p n).prefix_length = p ∧
      (calculate_network_values v p n).ip_int = n ∧
      (calculate_network_values v p n).network_address_int =
        n &&& (((1 <<< w) - 1) ^^^ ((1 <<< (w - p)) - 1)) ∧
      (calculate_network_values v p n).broadcast_address_int =
        (n &&& (((1 <<< w) - 1) ^^^ ((1 <<< (w - p)) - 1))) ||| ((1 <<< (w - p)) - 1) :=
    ⟨rfl, rfl, rfl, rfl, rfl⟩
  obtain ⟨hver, hpl, hipi, hnet, hbr⟩ := hfields
  rw [hver, hpl, hipi, hnet, hbr, ← hwdef]
  have hmask : ((1 <<< w) - 1 : ℕ) ^^^ ((1 <<< (w - p)) - 1) = 2 ^ w - 2 ^ (w - p) :=
    maskHi_eq w (w - p) (by omega)
  have hshift : ((1 <<< (w - p)) - 1 : ℕ) = 2 ^ (w - p) - 1 := by rw [one_shiftLeft]
  rw [hmask, hshift]
  refine ⟨?_, ?_, rfl, rfl⟩
  · rw [Nat.and_assoc, maskHi_and_low w (w - p) (by omega), Nat.and_zero]
  · rw [and_maskHi w (w - p) n hn (by omega)]

/-- C9: the address count of a parsed network is exactly `2^(width-prefix)`
as an unbounded natural number, the prefix lies in `[0, width]`, and the
IPv6 all-zero network with prefix 0 reports exactly `2^128` addresses. -/
theorem claim_C9 (s : String) (net : NetworkV) (h : networkParse s = Except.ok net) :
    get_num_addresses net =
        2 ^ ((if net.version = 4 then 32 else 128) - net.prefix_length) ∧
      net.prefix_length ≤ (if net.version = 4 then 32 else 128) ∧
      (networkParse "0:0:0:0:0:0:0:0/0").map get_num_addresses = Except.ok (2 ^ 128) := by
  obtain ⟨v, n, p, rfl, hpw, hv⟩ := networkParse_ok_inv s net h
  refine ⟨?_, ?_, by rfl⟩
  · rw [get_num_addresses, one_shiftLeft]
  · exact hpw

theorem ipv4Groups_mem_general (k : ℕ) :
    ∀ (z : ℤ) g, g ∈ ipv4Groups z k → ∃ m : ℕ, g = decDigits m := by
  induction k with
  | zero => intro z g hg; simp [ipv4Groups] at hg
  | succ k ih =>
    intro z g hg
    rw [ipv4Groups] at hg
    rcases List.mem_append.1 hg with hg | hg
    · exact ih _ _ hg
    · simp only [List.mem_singleton] at hg
      exact ⟨_, hg⟩

theorem ipv6Groups_mem_general (k : ℕ) :
    ∀ (z : ℤ) g, g ∈ ipv6Groups z k → ∃ m : ℕ, g = hex4 m := by
  induction k with
  | zero => intro z g hg; simp [ipv6Groups] at hg
  | succ k ih =>
    intro z g hg
    rw [ipv6Groups] at hg
    rcases List.mem_append.1 hg with hg | hg
    · exact ih _ _ hg
    · simp only [List.mem_singleton] at hg
      exact ⟨_, hg⟩

theorem int_to_ipv4_str_mem_general (z : ℤ) (c : Char) (hc : c ∈ (int_to_ipv4_str z).data) :
    c = '.' ∨ ∃ d, d < 10 ∧ c = Char.ofNat (48 + d) := by
  rcases pyJoin_mem '.' _ c hc with h | ⟨g, hg, hcg⟩
  · exact Or.inl h
  · obtain ⟨m, rfl⟩ := ipv4Groups_mem_general 4 z g hg
    exact Or.inr (decDigits_mem m c hcg)

theorem int_to_ipv6_str_mem_general (z : ℤ) (c : Char) (hc : c ∈ (int_to_ipv6_str z).data) :
    c = ':' ∨ ∃ d, d < 16 ∧ c = hexChar d := by
  rcases pyJoin_mem ':' _ c hc with h | ⟨g, hg, hcg⟩
  · exact Or.inl h
  · obtain ⟨m, rfl⟩ := ipv6Groups_mem_general 8 z g hg
    exact Or.inr (hex4_mem m c hcg)

theorem ipv4_str_ne_NA (z : ℤ) : int_to_ipv4_str z ≠ "N/A" := by
  intro h
  have hmem : ('N' : Char) ∈ (int_to_ipv4_str z).data := by
    rw [show (int_to_ipv4_str z).data = ['N', '/', 'A'] by rw [h]]
    simp
  rcases int_to_ipv4_str_mem_general z 'N' hmem with h' | ⟨d, hd, h'⟩
  · exact absurd h' (by decide)
  · have hne : ∀ d : ℕ, d < 10 → Char.ofNat (48 + d) ≠ 'N' := by
      intro d hd
      interval_cases d <;> decide
    exact hne d hd h'.symm

theorem ipv6_str_ne_NA (z : ℤ) : int_to_ipv6_str z ≠ "N/A" := by
  intro h
  have hmem : ('N' : Char) ∈ (int_to_ipv6_str z).data := by
    rw [show (int_to_ipv6_str z).data = ['N', '/', 'A'] by rw [h]]
    simp
  rcases int_to_ipv6_str_mem_general z 'N' hmem with h' | ⟨d, hd, h'⟩
  · exact absurd h' (by decide)
  · have hne : ∀ d : ℕ, d < 16 → hexChar d ≠ 'N' := by
      intro d hd
      interval_cases d <;> decide
    exact hne d hd h'.symm

/-- C3 counterexample: the claim says the first-usable query of a `/32`
reports a "not applicable" sentinel, but `Network.get_first_usable` of
`255.255.255.255/32` computes `base+1`, which wraps around to the
out-of-range rendering `0.0.0.0` — not a sentinel. -/
theorem claim_C3_counterexample :
    (networkParse "255.255.255.255/32").map get_first_usable = Except.ok "0.0.0.0" ∧
      (networkParse "0.0.0.0/32").map get_last_usable = Except.ok "255.255.255.255" ∧
      "0.0.0.0" ≠ "N/A" := by
  exact ⟨rfl, rfl, by decide⟩

/-- C3 (amended): `cidr_calculator.analyze_network` reports the `"N/A"`
sentinel for first/last usable exactly when `width - prefix ≤ 1` and returns
`base+1` / `last-1` for larger blocks; `pure_cidr_calculator`'s
`Network.get_first_usable`/`get_last_usable`, however, never report a
sentinel — they always format `base+1` and `broadcast-1`, even for /31, /32,
/127 and /128 where those values lie outside the block. -/
theorem claim_C3 (w p base : ℕ) :
    (w - p ≤ 1 → analyze_first_usable w p base = none ∧ analyze_last_usable w p base = none) ∧
      (2 ≤ w - p → analyze_first_usable w p base = some (base + 1) ∧
        analyze_last_usable w p base = some (base + 2 ^ (w - p) - 2)) ∧
      (∀ s net, networkParse s = Except.ok net →
        get_first_usable net ≠ "N/A" ∧ get_last_usable net ≠ "N/A") := by
  refine ⟨?_, ?_, ?_⟩
  · intro h1
    have h2 : 2 ^ (w - p) ≤ 2 := by
      calc 2 ^ (w - p) ≤ 2 ^ 1 := Nat.pow_le_pow_right (by norm_num) h1
      _ = 2 := by norm_num
    constructor
    · rw [analyze_first_usable, if_neg (by omega)]
    · rw [analyze_last_usable, if_neg (by omega)]
  · intro h1
    have h2 : 2 < 2 ^ (w - p) := by
      calc 2 < 2 ^ 2 := by norm_num
      _ ≤ 2 ^ (w - p) := Nat.pow_le_pow_right (by norm_num) h1
    constructor
    · rw [analyze_first_usable, if_pos h2]
    · rw [analyze_last_usable, if_pos h2]
  · intro s net hnet
    rw [get_first_usable, get_last_usable]
    by_cases hv : net.version = 4
    · rw [if_pos hv, if_pos hv]
      exact ⟨ipv4_str_ne_NA _, ipv4_str_ne_NA _⟩
    · rw [if_neg hv, if_neg hv]
      exact ⟨ipv6_str_ne_NA _, ipv6_str_ne_NA _⟩

/-- C1 refutation: on the range `10.0.0.4 .. 10.0.0.6` the code emits the
single block `10.0.0.4/30`, whose last address `10.0.0.4 + 2^2 - 1 = 10.0.0.7`
extends past `end`: `find_optimal_prefix` uses only the CLZ of
`current ^ end` and never applies the containment bound, so the union of the
emitted blocks is strictly larger than `[start, end]`. -/
theorem claim_C1 :
    ipParse "10.0.0.4" = Except.ok ⟨4, 167772164⟩ ∧
      ipParse "10.0.0.6" = Except.ok ⟨4, 167772166⟩ ∧
      find_optimal_cidrs "10.0.0.4" "10.0.0.6" = ["10.0.0.4/30"] ∧
      optimal_blocks 32 167772164 167772166 = [(167772164, 30)] ∧
      167772166 < 167772164 + 2 ^ (32 - 30) - 1 := by
  exact ⟨rfl, rfl, rfl, rfl, by norm_num⟩

/-- C2 refutation: the `::` expansion inserts too many zero groups —
`missing_count = 8 - count(param) + 1` and the replacement text begins with
a second `:` — so `2001:db8::1` expands to `2001:db8::0:0:0:0:0:0:1`,
splits into 10 groups instead of 8, and parsing raises; the uncompressed
form of the same address parses fine. -/
theorem claim_C2 :
    ipv6_to_int "2001:db8:0:0:0:0:0:1".data =
        Except.ok 42540766411282592856903984951653826561 ∧
      ipv6Expand "2001:db8::1".data = "2001:db8::0:0:0:0:0:0:1".data ∧
      (pySplitOn ':' (ipv6Expand "2001:db8::1".data)).length = 10 ∧
      ipv6_to_int "2001:db8::1".data = Except.error "Невалиден IPv6 адрес" ∧
      ipParse "2001:db8::1" = Except.error "Невалиден IPv6 адрес" := by
  exact ⟨rfl, rfl, rfl, rfl, rfl⟩

/-- C4 counterexample: Python's `int()` leniency lets `_ipv4_to_int` accept
octets with signs, surrounding whitespace and digit-group underscores, which
the claim says must be rejected as extraneous characters. -/
theorem claim_C4_counterexample :
    ipv4_to_int "+1.2.3.4".data = Except.ok 16909060 ∧
      ipv4_to_int " 1.2.3.4".data = Except.ok 16909060 ∧
      ipv4_to_int "1_6.2.3.4".data = Except.ok 268567300 := by
  exact ⟨rfl, rfl, rfl⟩

/-- C4 (amended): `_ipv4_to_int` succeeds exactly when the text splits on
`.` into 4 components each accepted by Python's `int()` (which tolerates
sign, surrounding whitespace and underscores — not only plain decimal
digits) with value in `[0, 255]`, packing the octets most-significant
first; and `300.1.1.1/24` is rejected citing the invalid octet `300`. -/
theorem claim_C4 (l : List Char) (v : ℕ) :
    (ipv4_to_int l = Except.ok v ↔
      ∃ p₁ p₂ p₃ p₄, pySplitOn '.' l = [p₁, p₂, p₃, p₄] ∧
        ∃ o₁ o₂ o₃ o₄ : ℤ,
          pyInt10 p₁ = some o₁ ∧ 0 ≤ o₁ ∧ o₁ ≤ 255 ∧
          pyInt10 p₂ = some o₂ ∧ 0 ≤ o₂ ∧ o₂ ≤ 255 ∧
          pyInt10 p₃ = some o₃ ∧ 0 ≤ o₃ ∧ o₃ ≤ 255 ∧
          pyInt10 p₄ = some o₄ ∧ 0 ≤ o₄ ∧ o₄ ≤ 255 ∧
          v = o₁.toNat * 16777216 + o₂.toNat * 65536 + o₃.toNat * 256 + o₄.toNat) ∧
      networkParse "300.1.1.1/24" = Except.error "Невалидна стойност за октет: 300" := by
  constructor
  · rw [ipv4_to_int]
    constructor
    · intro h
      by_cases hlen : (pySplitOn '.' l).length ≠ 4
      · rw [if_pos hlen] at h; exact Except.noConfusion h
      · rw [if_neg hlen] at h
        push_neg at hlen
        obtain ⟨p₁, p₂, p₃, p₄, hps⟩ :
            ∃ p₁ p₂ p₃ p₄, pySplitOn '.' l = [p₁, p₂, p₃, p₄] := by
          rcases hL : pySplitOn '.' l with _ | ⟨p₁, _ | ⟨p₂, _ | ⟨p₃, _ | ⟨p₄, _ | ⟨p₅, t⟩⟩⟩⟩⟩ <;>
            rw [hL] at hlen <;> simp at hlen
          exact ⟨p₁, p₂, p₃, p₄, rfl⟩
        rw [hps] at h
        rw [ipv4Fold_cons_ok] at h
        obtain ⟨o₁, h₁, ha₁, hb₁, h⟩ := h
        rw [ipv4Fold_cons_ok] at h
        obtain ⟨o₂, h₂, ha₂, hb₂, h⟩ := h
        rw [ipv4Fold_cons_ok] at h
        obtain ⟨o₃, h₃, ha₃, hb₃, h⟩ := h
        rw [ipv4Fold_cons_ok] at h
        obtain ⟨o₄, h₄, ha₄, hb₄, h⟩ := h
        rw [ipv4Fold.eq_def] at h
        dsimp only at h
        injection h with hv
        refine ⟨p₁, p₂, p₃, p₄, hps, o₁, o₂, o₃, o₄,
          h₁, ha₁, hb₁, h₂, ha₂, hb₂, h₃, ha₃, hb₃, h₄, ha₄, hb₄, ?_⟩
        rw [← hv]
        simp only [Nat.shiftLeft_eq]
        ring
    · rintro ⟨p₁, p₂, p₃, p₄, hps, o₁, o₂, o₃, o₄,
        h₁, ha₁, hb₁, h₂, ha₂, hb₂, h₃, ha₃, hb₃, h₄, ha₄, hb₄, hv⟩
      rw [hps, if_neg (by simp)]
      rw [ipv4Fold_cons_ok]
      refine ⟨o₁, h₁, ha₁, hb₁, ?_⟩
      rw [ipv4Fold_cons_ok]
      refine ⟨o₂, h₂, ha₂, hb₂, ?_⟩
      rw [ipv4Fold_cons_ok]
      refine ⟨o₃, h₃, ha₃, hb₃, ?_⟩
      rw [ipv4Fold_cons_ok]
      refine ⟨o₄, h₄, ha₄, hb₄, ?_⟩
      rw [ipv4Fold.eq_def]
      dsimp only
      congr 1
      rw [hv]
      simp only [Nat.shiftLeft_eq]
      ring
  · rfl

/-- C6: the summarization loop terminates — each iteration's final block
prefix lies in `[0, width]`, the advance adds the positive block size
`2^(width-prefix)` so `current` strictly increases, the loop's fuel
recursion is stable (any fuel of at least `end+1-current` iterations gives
the same run), and the number of emitted blocks is bounded by the range
size. -/
theorem claim_C6 (w c e : ℕ) (hc : c < 2 ^ w) (he : e < 2 ^ w) :
    blockPfx w c e ≤ w ∧
      nextIp w c (blockPfx w c e) = c + 2 ^ (w - blockPfx w c e) ∧
      c < nextIp w c (blockPfx w c e) ∧
      (∀ f, e + 1 - c ≤ f → optimalAux w e f c = optimal_blocks w c e) ∧
      (optimal_blocks w c e).length ≤ e + 1 - c := by
  obtain ⟨-, hle, hdvd⟩ := blockPfx_bounds w c e hc
  refine ⟨hle, nextIp_eq w c _ hc hdvd, nextIp_gt w c e hc, ?_, ?_⟩
  · intro f hf
    exact optimalAux_fuel w e he f (e + 1 - c) c hc hf (le_refl _)
  · exact optimal_blocks_length w e he (e + 1 - c) c rfl hc

theorem claim_C6_witness : (optimal_blocks 32 0 3).length ≤ 3 + 1 - 0 :=
  (claim_C6 32 0 3 (by norm_num) (by norm_num)).2.2.2.2

/-- C5: for parsed same-version endpoints with `start <= end`, the number of
blocks the code emits equals the length of the returned string list, is
minimal among all contiguous decompositions of `[start, end]` into aligned
power-of-two blocks (`Tiles`), and no two adjacent emitted blocks are
mergeable into one larger aligned block. -/
theorem claim_C5 (s₁ s₂ : String) (v n₁ n₂ : ℕ)
    (h₁ : ipParse s₁ = Except.ok ⟨v, n₁⟩) (h₂ : ipParse s₂ = Except.ok ⟨v, n₂⟩)
    (hle : n₁ ≤ n₂) :
    (find_optimal_cidrs s₁ s₂).length =
        (optimal_blocks (if v = 4 then 32 else 128) n₁ n₂).length ∧
      (∀ L, Tiles n₁ (n₂ + 1) L →
        (optimal_blocks (if v = 4 then 32 else 128) n₁ n₂).length ≤ L.length) ∧
      List.Chain' (fun b b' => ¬ mergeable (if v = 4 then 32 else 128) b b')
        (optimal_blocks (if v = 4 then 32 else 128) n₁ n₂) := by
  have hb₁ := ipParse_ok_bound _ _ h₁
  have hb₂ := ipParse_ok_bound _ _ h₂
  dsimp only at hb₁ hb₂
  have hn₂ : n₂ < 2 ^ (if v = 4 then 32 else 128) := by
    rcases hb₂ with ⟨hv4, hb, -⟩ | ⟨hv6, hb, -⟩
    · rw [if_pos hv4]; exact hb
    · rw [if_neg (by rw [hv6]; norm_num)]; exact hb
  have hn₁ : n₁ < 2 ^ (if v = 4 then 32 else 128) := lt_of_le_of_lt hle hn₂
  refine ⟨?_, ?_, ?_⟩
  · rw [find_optimal_cidrs_eq s₁ s₂ v n₁ n₂ h₁ h₂,
      if_neg (Nat.not_lt.2 hle), if_neg (Nat.not_lt.2 hle), List.length_map]
  · intro L hT
    rcases Nat.eq_or_lt_of_le hle with heq | hlt
    · subst heq
      exact optimal_blocks_min_count _ _ hn₂ (n₁ + 1 - n₁) n₁ rfl (le_refl _) L hT
    · exact optimal_blocks_min_count _ _ hn₂ (n₂ + 1 - n₁) n₁ rfl (by omega) L hT
  · exact optimal_blocks_chain _ _ hn₂ (n₂ + 1 - n₁) n₁ rfl hn₁

theorem claim_C5_witness :
    (find_optimal_cidrs "10.0.0.0" "10.0.0.3").length =
      (optimal_blocks (if 4 = 4 then 32 else 128) 167772160 167772163).length :=
  (claim_C5 "10.0.0.0" "10.0.0.3" 4 167772160 167772163 rfl rfl (by norm_num)).1

theorem hexChar_lowercase (d : ℕ) (hd : d < 16) : hexChar d ∈ "0123456789abcdef".data := by
  interval_cases d <;> decide

/-- C8: formatting a successfully parsed address yields the canonical form —
4 dot-joined decimal octet strings for version 4, 8 colon-joined groups of
exactly 4 lowercase hexadecimal digits for version 6 — and that canonical
form re-parses to the identical version and integer value. -/
theorem claim_C8 (s : String) (ip : IPv) (h : ipParse s = Except.ok ip) :
    (ip.version = 4 →
        (∃ m₁ m₂ m₃ m₄, m₁ < 256 ∧ m₂ < 256 ∧ m₃ < 256 ∧ m₄ < 256 ∧
          int_to_ipv4_str (ip.ip_int : ℤ) =
            String.mk (pyJoin '.' [decDigits m₁, decDigits m₂, decDigits m₃, decDigits m₄])) ∧
        ipParse (int_to_ipv4_str (ip.ip_int : ℤ)) = Except.ok ip) ∧
      (ip.version = 6 →
        (∃ m₁ m₂ m₃ m₄ m₅ m₆ m₇ m₈,
          m₁ < 65536 ∧ m₂ < 65536 ∧ m₃ < 65536 ∧ m₄ < 65536 ∧
          m₅ < 65536 ∧ m₆ < 65536 ∧ m₇ < 65536 ∧ m₈ < 65536 ∧
          int_to_ipv6_str (ip.ip_int : ℤ) =
            String.mk (pyJoin ':' [hex4 m₁, hex4 m₂, hex4 m₃, hex4 m₄,
              hex4 m₅, hex4 m₆, hex4 m₇, hex4 m₈])) ∧
        (∀ m : ℕ, (hex4 m).length = 4) ∧
        (∀ d : ℕ, d < 16 → hexChar d ∈ "0123456789abcdef".data) ∧
        ipParse (int_to_ipv6_str (ip.ip_int : ℤ)) = Except.ok ip) := by
  cases ip with
  | mk ver n =>
    rcases ipParse_ok_bound _ _ h with ⟨hv, hb, -⟩ | ⟨hv, hb, -⟩ <;> dsimp only at hv hb ⊢
    · subst hv
      refine ⟨fun _ => ⟨?_, ipParse_fmt_v4 n hb⟩, fun h6 => absurd h6 (by norm_num)⟩
      refine ⟨n / 16777216 % 256, n / 65536 % 256, n / 256 % 256, n % 256,
        Nat.mod_lt _ (by norm_num), Nat.mod_lt _ (by norm_num),
        Nat.mod_lt _ (by norm_num), Nat.mod_lt _ (by norm_num), ?_⟩
      rw [int_to_ipv4_str, ipv4Groups_four]
    · subst hv
      refine ⟨fun h4 => absurd h4 (by norm_num),
        fun _ => ⟨?_, fun _ => rfl, hexChar_lowercase, ipParse_fmt_v6 n hb⟩⟩
      refine ⟨n / 65536 ^ 7 % 65536, n / 65536 ^ 6 % 65536, n / 65536 ^ 5 % 65536,
        n / 65536 ^ 4 % 65536, n / 65536 ^ 3 % 65536, n / 65536 ^ 2 % 65536,
        n / 65536 % 65536, n % 65536,
        Nat.mod_lt _ (by norm_num), Nat.mod_lt _ (by norm_num),
        Nat.mod_lt _ (by norm_num), Nat.mod_lt _ (by norm_num),
        Nat.mod_lt _ (by norm_num), Nat.mod_lt _ (by norm_num),
        Nat.mod_lt _ (by norm_num), Nat.mod_lt _ (by norm_num), ?_⟩
      rw [int_to_ipv6_str, ipv6Groups_eight]

theorem claim_C8_witness :
    ipParse (int_to_ipv4_str ((16909060 : ℕ) : ℤ)) = Except.ok ⟨4, 16909060⟩ :=
  ((claim_C8 "1.2.3.4" ⟨4, 16909060⟩ rfl).1 rfl).2

theorem cidr_item_v4 (c p : ℕ) (hc : c < 2 ^ 32) (hp : p ≤ 32) :
    ipParse (int_to_ipv4_str (c : ℤ)) = Except.ok ⟨4, c⟩ ∧
      networkParse (cidrString 4 (c, p)) = Except.ok (calculate_network_values 4 p c) ∧
      '/' ∈ (cidrString 4 (c, p)).data := by
  have hfmt := ipParse_fmt_v4 c hc
  have hcs : cidrString 4 (c, p) = int_to_ipv4_str (c : ℤ) ++ "/" ++ String.mk (decDigits p) :=
    rfl
  refine ⟨hfmt, ?_, ?_⟩
  · rw [hcs]
    exact networkParse_build _ 4 c p (int_to_ipv4_str_no_slash c) hfmt hp
  · rw [hcs, string_data_slash_append]
    simp

theorem cidr_item_v6 (c p : ℕ) (hc : c < 2 ^ 128) (hp : p ≤ 128) :
    ipParse (int_to_ipv6_str (c : ℤ)) = Except.ok ⟨6, c⟩ ∧
      networkParse (cidrString 6 (c, p)) = Except.ok (calculate_network_values 6 p c) ∧
      '/' ∈ (cidrString 6 (c, p)).data := by
  have hfmt := ipParse_fmt_v6 c hc
  have hcs : cidrString 6 (c, p) = int_to_ipv6_str (c : ℤ) ++ "/" ++ String.mk (decDigits p) :=
    rfl
  refine ⟨hfmt, ?_, ?_⟩
  · rw [hcs]
    exact networkParse_build _ 6 c p (int_to_ipv6_str_no_slash c) hfmt hp
  · rw [hcs, string_data_slash_append]
    simp

/-- C10: every string emitted by a successful `find_optimal_cidrs` run is a
well-formed CIDR: it is the code's `addr/px` rendering of an emitted block,
contains a `/`, carries a prefix within `[0, width]`, has an address part
that re-parses to the block's starting integer, and is accepted by the
`Network` constructor without error. -/
theorem claim_C10 (s₁ s₂ : String) (v n₁ n₂ : ℕ)
    (h₁ : ipParse s₁ = Except.ok ⟨v, n₁⟩) (h₂ : ipParse s₂ = Except.ok ⟨v, n₂⟩) :
    ∀ str ∈ find_optimal_cidrs s₁ s₂, ∃ c p : ℕ,
      str = cidrString v (c, p) ∧
      p ≤ (if v = 4 then 32 else 128) ∧
      ipParse (if v = 4 then int_to_ipv4_str (c : ℤ) else int_to_ipv6_str (c : ℤ)) =
        Except.ok ⟨v, c⟩ ∧
      networkParse str = Except.ok (calculate_network_values v p c) ∧
      '/' ∈ str.data := by
  intro str hstr
  rw [find_optimal_cidrs_eq s₁ s₂ v n₁ n₂ h₁ h₂] at hstr
  obtain ⟨b, hb, rfl⟩ := List.mem_map.1 hstr
  have hv₁ := ipParse_ok_bound _ _ h₁
  have hv₂ := ipParse_ok_bound _ _ h₂
  dsimp only at hv₁ hv₂
  rcases hv₁ with ⟨hv, hb₁, -⟩ | ⟨hv, hb₁, -⟩
  · subst hv
    have hred : (if (4 : ℕ) = 4 then (32 : ℕ) else 128) = 32 := rfl
    rcases hv₂ with ⟨-, hb₂, -⟩ | ⟨hv6, -, -⟩
    · rw [hred] at hb
      have hs₀ : (if n₂ < n₁ then n₂ else n₁) < 2 ^ 32 := by split <;> assumption
      have he₀ : (if n₂ < n₁ then n₁ else n₂) < 2 ^ 32 := by split <;> assumption
      obtain ⟨hblt, hple, -⟩ := optimal_blocks_mem 32 _ he₀ _ _ rfl hs₀ b hb
      cases b with
      | mk c p =>
        obtain ⟨hparse, hnet, hslash⟩ := cidr_item_v4 c p hblt hple
        exact ⟨c, p, rfl, hple, hparse, hnet, hslash⟩
    · exact absurd hv6 (by norm_num)
  · subst hv
    have hred : (if (6 : ℕ) = 4 then (32 : ℕ) else 128) = 128 := rfl
    rcases hv₂ with ⟨hv4, -, -⟩ | ⟨-, hb₂, -⟩
    · exact absurd hv4 (by norm_num)
    · rw [hred] at hb
      have hs₀ : (if n₂ < n₁ then n₂ else n₁) < 2 ^ 128 := by split <;> assumption
      have he₀ : (if n₂ < n₁ then n₁ else n₂) < 2 ^ 128 := by split <;> assumption
      obtain ⟨hblt, hple, -⟩ := optimal_blocks_mem 128 _ he₀ _ _ rfl hs₀ b hb
      cases b with
      | mk c p =>
        obtain ⟨hparse, hnet, hslash⟩ := cidr_item_v6 c p hblt hple
        exact ⟨c, p, rfl, hple, hparse, hnet, hslash⟩

theorem claim_C10_witness :
    ∃ c p : ℕ, "10.0.0.0/31" = cidrString 4 (c, p) ∧
      p ≤ (if 4 = 4 then 32 else 128) ∧
      ipParse (if 4 = 4 then int_to_ipv4_str (c : ℤ) else int_to_ipv6_str (c : ℤ)) =
        Except.ok ⟨4, c⟩ ∧
      networkParse "10.0.0.0/31" = Except.ok (calculate_network_values 4 p c) ∧
      '/' ∈ "10.0.0.0/31".data :=
  claim_C10 "10.0.0.0" "10.0.0.1" 4 167772160 167772161 rfl rfl "10.0.0.0/31"
    (by rw [show find_optimal_cidrs "10.0.0.0" "10.0.0.1" = ["10.0.0.0/31"] from rfl]
        exact List.mem_singleton_self _)

theorem claim_C7_witness :
    (networkParse "192.168.1.77/24").map (fun k => k.network_address_int) =
      Except.ok 3232235776 :=
  (claim_C7 "192.168.1.77/24" (calculate_network_values 4 24 3232235853) rfl).2.2.2

theorem claim_C9_witness :
    (networkParse "0:0:0:0:0:0:0:0/0").map get_num_addresses = Except.ok (2 ^ 128) :=
  (claim_C9 "192.168.1.0/24" (calculate_network_values 4 24 3232235776) rfl).2.2
